import Mathlib

/-!
# Verification of the pyURLs URL-deduplication core

Shallow embedding of the three core components of the repository
(`src/crawler/utils/normalize.py`, `src/crawler/utils/validation.py`,
`src/crawler/utils/deduplication.py`) together with the parts of CPython's
`urllib.parse` that they call (modelled on CPython 3.11 semantics, the
`urlsplit`/`urlunsplit` round-trip behaviour of 3.10.6+).

Strings are modelled as `List Char` (`Str`).  Character-level fidelity notes:
* `str.lower` is modelled ASCII-wise (`pyLowerChar`), as is `isalpha`.
* `quote_plus`/`unquote` are modelled per character: a character with code
  point below 256 is percent-encoded as one `%XX` escape and decoded back to
  that code point.  CPython encodes non-ASCII characters via UTF-8 as several
  escapes; that byte-level detail is outside the model, which keeps code
  points ≥ 256 unescaped.  For ASCII data (all concrete inputs below) the
  model agrees exactly with CPython.
* `urlsplit`'s paired-bracket netloc check (`Invalid IPv6 URL`) is modelled;
  the 3.11-only validation of the *content* of a bracketed host and the
  non-ASCII NFKC netloc check are not.  General theorems about hosts either
  carry a bracket-free hypothesis or do not depend on the raise set.

The Python `dict` is modelled as an insertion-ordered association list, the
Python `set` as a duplicate-free list, and `sorted` (a stable sort) as a
stable insertion sort — stability determines the output of a stable sort
uniquely, so this is exactly CPython's observable sorting behaviour.

External primitives that are not part of the repository are parameters of the
model: the MurmurHash3 digest is an arbitrary function `hashFn : Str → Str`,
and the scalable bloom filter is an exact set of inserted keys together with
a per-call false-positive oracle (a real bloom filter reports "present" for
every inserted key, may report "present" for an absent key once something has
been inserted, and reports "absent" for everything while empty).  Faults of
the hash/filter libraries are modelled by per-call fault oracles so that the
error-handling contract of `is_duplicate` can be stated.
-/

set_option autoImplicit false

deriving instance DecidableEq for Except

namespace PyURLs

/-- Strings as lists of characters. -/
abbrev Str := List Char

/-- Coerce a Lean string literal into the model's string type. -/
def chars (s : String) : Str := s.data

/-! ## Character helpers (ASCII models of `str` methods) -/

/-- ASCII model of `str.lower` on one character. -/
def pyLowerChar (c : Char) : Char :=
  if 65 ≤ c.toNat ∧ c.toNat ≤ 90 then Char.ofNat (c.toNat + 32) else c

/-- `str.lower` on a string. -/
def lower (s : Str) : Str := s.map pyLowerChar

/-- `c.isascii() and c.isalpha()` (ASCII letter). -/
def pyIsAlpha (c : Char) : Bool :=
  (65 ≤ c.toNat && c.toNat ≤ 90) || (97 ≤ c.toNat && c.toNat ≤ 122)

/-- ASCII letter or digit. -/
def pyIsAlnum (c : Char) : Bool :=
  pyIsAlpha c || (48 ≤ c.toNat && c.toNat ≤ 57)

/-- Membership in `urllib.parse.scheme_chars`. -/
def isSchemeChar (c : Char) : Bool :=
  pyIsAlnum c || c = '+' || c = '-' || c = '.'

/-! ## Generic string operations -/

/-- Python `s.replace(old, new)` (leftmost, non-overlapping), by fuel on the
length of `s`; each step consumes at least one character when `old ≠ []`. -/
def replaceAux (old new : Str) : Nat → Str → Str
  | 0, s => s
  | _ + 1, [] => []
  | fuel + 1, c :: rest =>
    if old.isPrefixOf (c :: rest) then
      new ++ replaceAux old new fuel ((c :: rest).drop old.length)
    else
      c :: replaceAux old new fuel rest

/-- Python `s.replace(old, new)`.  (The repository only replaces non-empty
patterns, so the empty-pattern insertion behaviour of Python is not needed;
an empty pattern leaves the string unchanged here.) -/
def pyReplace (s old new : Str) : Str :=
  if old = [] then s else replaceAux old new s.length s

/-- `re.sub(suffix-anchored pattern, '', s)`: drop `suf` from the end of `s`
if it is a suffix, else leave `s`. -/
def stripEnd (suf s : Str) : Str :=
  if suf.isSuffixOf s then s.take (s.length - suf.length) else s

/-- Python `s.rstrip('/')`. -/
def rstripSlash (s : Str) : Str := (s.reverse.dropWhile (· = '/')).reverse

/-- Python `s.split(sep)` for a one-character separator (empty chunks kept;
`"".split(sep) = [""]`). -/
def splitSep (sep : Char) : Str → List Str
  | [] => [[]]
  | c :: rest =>
    if c = sep then [] :: splitSep sep rest
    else
      match splitSep sep rest with
      | s :: ss => (c :: s) :: ss
      | [] => [[c]]

/-- First index of `c` in `s`, if any (Python `s.find(c)` on success). -/
def findIdx (c : Char) (s : Str) : Option Nat := s.findIdx? (· = c)

/-- First index of `c` at or after `start` (Python `s.find(c, start)`). -/
def findIdxFrom (c : Char) (start : Nat) (s : Str) : Option Nat :=
  ((s.drop start).findIdx? (· = c)).map (· + start)

/-- Last index of `c` in `s`, if any (Python `s.rfind(c)` on success). -/
def rfindIdx (c : Char) (s : Str) : Option Nat :=
  (s.reverse.findIdx? (· = c)).map (fun i => s.length - 1 - i)

/-! ## `urllib.parse` model -/

/-- `_WHATWG_C0_CONTROL_OR_SPACE` stripping: drop leading characters with
code point ≤ 0x20. -/
def lstripControl (s : Str) : Str := s.dropWhile (fun c => c.toNat ≤ 32)

/-- `_UNSAFE_URL_BYTES_TO_REMOVE`: remove every tab, newline, carriage
return. -/
def removeUnsafe (s : Str) : Str :=
  s.filter (fun c => ¬ (c = '\t' ∨ c = '\n' ∨ c = '\r'))

/-- Delimiters that end the netloc in `_splitnetloc`. -/
def netlocDelim (c : Char) : Bool := c = '/' || c = '?' || c = '#'

/-- Result of `urlsplit`. -/
structure UrlSplitResult where
  scheme : Str
  netloc : Str
  path : Str
  query : Str
  fragment : Str
deriving Repr, DecidableEq

/-- Model of `urllib.parse.urlsplit` (CPython 3.11).  Raising `ValueError`
is modelled by `Except.error` carrying the message. -/
def urlsplitE (url0 : Str) : Except Str UrlSplitResult :=
  let url1 := removeUnsafe (lstripControl url0)
  let pre := url1.takeWhile (· ≠ ':')
  let schemeOk : Bool :=
    decide (pre.length < url1.length) && !pre.isEmpty &&
    pyIsAlpha (pre.headD ' ') && pre.all isSchemeChar
  let scheme := if schemeOk then lower pre else []
  let rest1 := if schemeOk then url1.drop (pre.length + 1) else url1
  let netloc := if rest1.take 2 = ['/', '/'] then
      (rest1.drop 2).takeWhile (fun c => !netlocDelim c)
    else []
  let rest2 := if rest1.take 2 = ['/', '/'] then
      (rest1.drop 2).dropWhile (fun c => !netlocDelim c)
    else rest1
  if ('[' ∈ netloc ∧ ']' ∉ netloc) ∨ (']' ∈ netloc ∧ '[' ∉ netloc) then
    .error (chars "Invalid IPv6 URL")
  else
    let rest3 := if '#' ∈ rest2 then rest2.takeWhile (· ≠ '#') else rest2
    let fragment := if '#' ∈ rest2 then (rest2.dropWhile (· ≠ '#')).drop 1 else []
    let path := if '?' ∈ rest3 then rest3.takeWhile (· ≠ '?') else rest3
    let query := if '?' ∈ rest3 then (rest3.dropWhile (· ≠ '?')).drop 1 else []
    .ok ⟨scheme, netloc, path, query, fragment⟩

/-- `urllib.parse.uses_params`. -/
def usesParams : List Str :=
  [chars "", chars "ftp", chars "hdl", chars "prospero", chars "http",
   chars "imap", chars "https", chars "shttp", chars "rtsp", chars "rtsps",
   chars "rtspu", chars "sip", chars "sips", chars "mms", chars "sftp",
   chars "tel"]

/-- `urllib.parse.uses_netloc`. -/
def usesNetloc : List Str :=
  [chars "", chars "ftp", chars "http", chars "gopher", chars "nntp",
   chars "telnet", chars "imap", chars "wais", chars "file", chars "mms",
   chars "https", chars "shttp", chars "snews", chars "prospero",
   chars "rtsp", chars "rtsps", chars "rtspu", chars "rsync", chars "svn",
   chars "svn+ssh", chars "sftp", chars "nfs", chars "git", chars "git+ssh",
   chars "ws", chars "wss"]

/-- Model of `urllib.parse._splitparams` (only called when `';' ∈ p`). -/
def splitparams (p : Str) : Str × Str :=
  if '/' ∈ p then
    match findIdxFrom ';' ((rfindIdx '/' p).getD 0) p with
    | none => (p, [])
    | some i => (p.take i, p.drop (i + 1))
  else
    match findIdx ';' p with
    | none => (p, [])
    | some i => (p.take i, p.drop (i + 1))

/-- Result of `urlparse`. -/
structure UrlParseResult where
  scheme : Str
  netloc : Str
  path : Str
  params : Str
  query : Str
  fragment : Str
deriving Repr, DecidableEq

/-- Model of `urllib.parse.urlparse`. -/
def urlparseE (url : Str) : Except Str UrlParseResult :=
  match urlsplitE url with
  | .error e => .error e
  | .ok r =>
    if r.scheme ∈ usesParams ∧ ';' ∈ r.path then
      let pp := splitparams r.path
      .ok ⟨r.scheme, r.netloc, pp.1, pp.2, r.query, r.fragment⟩
    else
      .ok ⟨r.scheme, r.netloc, r.path, [], r.query, r.fragment⟩

/-- `_ALWAYS_SAFE` membership: ASCII letters, digits, `_.-~`. -/
def isAlwaysSafe (c : Char) : Bool :=
  pyIsAlnum c || c = '_' || c = '.' || c = '-' || c = '~'

/-- Upper-case hex digit of `n < 16`. -/
def hexUpper (n : Nat) : Char :=
  if n < 10 then Char.ofNat (48 + n) else Char.ofNat (55 + n)

/-- Hex-digit test (`string.hexdigits`). -/
def isHexDigit (c : Char) : Bool :=
  (48 ≤ c.toNat && c.toNat ≤ 57) || (97 ≤ c.toNat && c.toNat ≤ 102) ||
  (65 ≤ c.toNat && c.toNat ≤ 70)

/-- Value of a hex digit. -/
def hexVal (c : Char) : Nat :=
  if 48 ≤ c.toNat ∧ c.toNat ≤ 57 then c.toNat - 48
  else if 97 ≤ c.toNat then c.toNat - 87
  else c.toNat - 55

/-- One character of `quote_plus` output (see the fidelity note above for
code points ≥ 256). -/
def quotePlusChar (c : Char) : Str :=
  if isAlwaysSafe c then [c]
  else if c = ' ' then ['+']
  else if c.toNat < 256 then ['%', hexUpper (c.toNat / 16), hexUpper (c.toNat % 16)]
  else [c]

/-- `urllib.parse.quote_plus` with `safe=''`. -/
def quotePlus (s : Str) : Str := (s.map quotePlusChar).flatten

/-- `%XX` decoding of `urllib.parse.unquote` (invalid escapes are passed
through, as in CPython; multi-byte UTF-8 sequences are outside the model).
Fuel-based recursion (each step consumes at least one character). -/
def percentDecodeAux : Nat → Str → Str
  | 0, s => s
  | _ + 1, [] => []
  | fuel + 1, c :: rest =>
    if c = '%' then
      match rest with
      | h1 :: h2 :: rest2 =>
        if isHexDigit h1 && isHexDigit h2 then
          Char.ofNat (16 * hexVal h1 + hexVal h2) :: percentDecodeAux fuel rest2
        else '%' :: percentDecodeAux fuel rest
      | _ => '%' :: percentDecodeAux fuel rest
    else c :: percentDecodeAux fuel rest

/-- `%XX` decoding, with enough fuel for the whole string. -/
def percentDecode (s : Str) : Str := percentDecodeAux s.length s

/-- The `.replace('+', ' ')` step of `parse_qsl`. -/
def plusToSpace (s : Str) : Str := s.map (fun c => if c = '+' then ' ' else c)

/-- `unquote(nv.replace('+', ' '))` as performed by `parse_qsl`. -/
def unquotePlus (s : Str) : Str := percentDecode (plusToSpace s)

/-- One `name=value` chunk of `parse_qsl`. -/
def qslPair (keepBlank : Bool) (nb : Str) : Option (Str × Str) :=
  if nb = [] then none
  else if '=' ∈ nb then
    let name := nb.takeWhile (· ≠ '=')
    let value := (nb.dropWhile (· ≠ '=')).drop 1
    if value ≠ [] ∨ keepBlank then some (unquotePlus name, unquotePlus value)
    else none
  else if keepBlank then some (unquotePlus nb, []) else none

/-- Model of `urllib.parse.parse_qsl` (separator `&`). -/
def parseQsl (keepBlank : Bool) (qs : Str) : List (Str × Str) :=
  ((splitSep '&' qs).map (qslPair keepBlank)).reduceOption

/-- Append one pair into the insertion-ordered multimap built by
`parse_qs`. -/
def qsAdd (acc : List (Str × List Str)) (k : Str) (v : Str) :
    List (Str × List Str) :=
  match acc with
  | [] => [(k, [v])]
  | (k', vs) :: rest =>
    if k' = k then (k', vs ++ [v]) :: rest else (k', vs) :: qsAdd rest k v

/-- Model of `urllib.parse.parse_qs`: group `parse_qsl` pairs into an
insertion-ordered dict from name to list of values. -/
def parseQs (keepBlank : Bool) (qs : Str) : List (Str × List Str) :=
  (parseQsl keepBlank qs).foldl (fun acc p => qsAdd acc p.1 p.2) []

/-- `'&'.join`. -/
def joinAmp : List Str → Str
  | [] => []
  | [s] => s
  | s :: rest => s ++ '&' :: joinAmp rest

/-- Model of `urllib.parse.urlencode(…, doseq=True)` on a list of
`(name, values)` pairs. -/
def urlencode (pairs : List (Str × List Str)) : Str :=
  joinAmp ((pairs.map
    (fun kv => kv.2.map (fun v => quotePlus kv.1 ++ '=' :: quotePlus v))).flatten)

/-- Python string `≤` (lexicographic by code point). -/
def strLeB : Str → Str → Bool
  | [], _ => true
  | _ :: _, [] => false
  | a :: as', b :: bs =>
    if a < b then true else if b < a then false else strLeB as' bs

/-- Stable insertion of `x` into `l`: `x` is placed before the first element
`y` with `le x y` — elements equal to `x` under `le` that are already in `l`
stay before `x` only if they were inserted later, which together with
`stableSort` below reproduces the stability of Python's `sorted`. -/
def insSorted {α : Type} (le : α → α → Bool) (x : α) : List α → List α
  | [] => [x]
  | y :: ys => if le x y then x :: y :: ys else y :: insSorted le x ys

/-- Stable sort (model of Python `sorted`; a stable sort's output is uniquely
determined by the order `le`, so any stable algorithm agrees). -/
def stableSort {α : Type} (le : α → α → Bool) : List α → List α
  | [] => []
  | x :: xs => insSorted le x (stableSort le xs)

/-- `sorted(pairs.items())` when all keys are distinct: sort by name. -/
def sortByName {β : Type} (l : List (Str × β)) : List (Str × β) :=
  stableSort (fun a b => strLeB a.1 b.1) l

/-- Model of `urllib.parse.urlunsplit` (CPython 3.10.6+/3.11). -/
def urlunsplit (scheme netloc path query fragment : Str) : Str :=
  let url1 :=
    if netloc ≠ [] ∨ (scheme ≠ [] ∧ scheme ∈ usesNetloc ∧ path.take 2 ≠ ['/', '/']) then
      '/' :: '/' :: netloc ++
        (if path ≠ [] ∧ path.take 1 ≠ ['/'] then '/' :: path else path)
    else path
  let url2 := if scheme ≠ [] then scheme ++ ':' :: url1 else url1
  let url3 := if query ≠ [] then url2 ++ '?' :: query else url2
  if fragment ≠ [] then url3 ++ '#' :: fragment else url3

/-- Model of `urllib.parse.urlunparse`. -/
def urlunparse (scheme netloc path params query fragment : Str) : Str :=
  urlunsplit scheme netloc (if params ≠ [] then path ++ ';' :: params else path)
    query fragment

/-! ## `URLNormalizer` (src/crawler/utils/normalize.py) -/

/-- `URLNormalizer.remove_params` (membership-only set). -/
def remove_params : List Str :=
  [chars "utm_source", chars "utm_medium", chars "utm_campaign",
   chars "utm_term", chars "utm_content", chars "fbclid",
   chars "gclid", chars "ref", chars "source"]

/-- `URLNormalizer.domain_variations` in dict insertion order (the order
matters: replacements are applied in sequence). -/
def domain_variations : List (Str × Str) :=
  [(chars "www.", chars ""), (chars ".m.", chars "."),
   (chars "-mobile.", chars ".")]

/-- The netloc transformation of `URLNormalizer.normalize`: lower-case,
strip `:80` and `:443` suffixes, apply the domain variations in order. -/
def hostTransform (netloc : Str) : Str :=
  let n1 := lower netloc
  let n2 := stripEnd (chars ":80") n1
  let n3 := stripEnd (chars ":443") n2
  domain_variations.foldl (fun n kv => pyReplace n kv.1 kv.2) n3

/-- The path transformation of `URLNormalizer.normalize`: strip trailing
slashes; an emptied path becomes `/`.  (Lower-casing is applied before.) -/
def pathFix (p : Str) : Str :=
  let p' := rstripSlash p
  if p' = [] then ['/'] else p'

/-- The query transformation of `URLNormalizer.normalize`: parse
(`keep_blank_values` left at its default `False`), drop `remove_params`
names, sort by name, re-encode. -/
def queryTransform (q : Str) : Str :=
  let query_params := parseQs false q
  let filtered_params :=
    query_params.filter (fun kv => decide (kv.1 ∉ remove_params))
  urlencode (sortByName filtered_params)

/-- The query transformation as the specification's words describe it: every
parameter whose *name* is in the nine-element blocklist is dropped and all
*remaining* parameters are kept, sorted and re-encoded.  This is the
spec-side definition, for comparison with `queryTransform` above, which is
translated from the source: the source calls `parse_qs` with its default
`keep_blank_values=False`, so it additionally drops every parameter whose
value is blank. -/
def queryTransformSpec (q : Str) : Str :=
  urlencode (sortByName
    ((parseQs true q).filter (fun kv => decide (kv.1 ∉ remove_params))))

/-- Characters `quote_plus` can emit: always-safe characters, `+`, `%`,
hex digits, or characters above the one-byte range (which the model passes
through, see the fidelity note at `quotePlusChar`). -/
def goodQ (c : Char) : Bool :=
  isAlwaysSafe c || c == '+' || c == '%' || isHexDigit c ||
  decide (256 ≤ c.toNat)

/-- A netloc character that survives `urlsplit` unchanged: no netloc
delimiter, no bracket, none of the unsafe bytes. -/
def netlocOk (c : Char) : Bool :=
  !netlocDelim c && c != '[' && c != ']' && c != '\t' && c != '\n' && c != '\r'

/-- A path character that survives `urlsplit` unchanged and triggers no
params split on re-parse. -/
def pathOk (c : Char) : Bool :=
  c != '#' && c != '?' && c != ';' && c != '\t' && c != '\n' && c != '\r'

/-- A query character that survives `urlsplit` unchanged. -/
def queryOk (c : Char) : Bool :=
  c != '#' && c != '\t' && c != '\n' && c != '\r'

/-- The well-formedness `parse_qs` guarantees of its output: names are
duplicate-free, every value list is non-empty, and (with
`keep_blank_values=False`) every value is non-blank. -/
def okPairs (pairs : List (Str × List Str)) : Prop :=
  (pairs.map Prod.fst).Nodup ∧ ∀ kv ∈ pairs, kv.2 ≠ [] ∧ ∀ v ∈ kv.2, v ≠ []

/-- Model of `URLNormalizer.normalize`: the only fallible step inside its
`try` block is `urlparse`; any error is swallowed into `none`. -/
def normalize (url : Str) : Option Str :=
  match urlparseE url with
  | .error _ => none
  | .ok p =>
    some (urlunparse p.scheme (hostTransform p.netloc) (pathFix (lower p.path))
      [] (queryTransform p.query) [])

/-! ## `URLValidator` (src/crawler/utils/validation.py) -/

/-- `URLValidationResult`. -/
structure URLValidationResult where
  is_valid : Bool
  reason : Str
deriving Repr, DecidableEq

/-- `URLValidator.skip_extensions`. -/
def skip_extensions : List Str :=
  [chars ".pdf", chars ".doc", chars ".docx", chars ".xls", chars ".xlsx",
   chars ".zip", chars ".rar", chars ".tar", chars ".gz", chars ".jpg",
   chars ".jpeg", chars ".png", chars ".gif", chars ".mp4", chars ".mp3"]

/-- `URLValidator.blocked_domains`. -/
def blocked_domains : List Str :=
  [chars "facebook.com", chars "twitter.com", chars "instagram.com",
   chars "youtube.com", chars "linkedin.com"]

/-- Model of `URLValidator.is_valid_url`.  `tldextract.extract` consults the
public-suffix list, an external data source; it is a parameter `tldx`
returning the `(domain, suffix)` pair the library would return. -/
def is_valid_url (tldx : Str → Str × Str) (url : Str) : URLValidationResult :=
  match urlparseE url with
  | .error e => ⟨false, chars "Validation error: " ++ e⟩
  | .ok p =>
    if p.scheme = [] ∨ p.netloc = [] then ⟨false, chars "Invalid URL format"⟩
    else if ¬ (p.scheme = chars "http" ∨ p.scheme = chars "https") then
      ⟨false, chars "Invalid scheme"⟩
    else
      let ext := tldx url
      let domain := ext.1 ++ '.' :: ext.2
      if domain ∈ blocked_domains then ⟨false, chars "Blocked domain"⟩
      else if skip_extensions.any (fun e => e.isSuffixOf (lower url)) then
        ⟨false, chars "Blocked file extension"⟩
      else if url.length > 2000 then ⟨false, chars "URL too long"⟩
      else ⟨true, []⟩

/-! ## `URLDeduplicator` (src/crawler/utils/deduplication.py) -/

/-- `DeduplicationResult`. -/
structure DeduplicationResult where
  is_duplicate : Bool
  hash_value : Str
  normalized_url : Str
  reason : Option Str
deriving Repr, DecidableEq

/-- The mutable state of a `URLDeduplicator`.  `bloom = some filt` models an
enabled probabilistic filter whose inserted-key set is `filt`; `bloom = none`
models `use_bloom_filter == False` (either requested or the import-failure
fallback). -/
structure DedupState where
  seen_urls : List Str
  url_frequency : List (Str × Nat)
  bloom : Option (List Str)
  max_cache_size : Nat
  total_urls : Nat
  duplicates : Nat
  unique_urls : Nat
  cache_evictions : Nat
deriving Repr, DecidableEq

/-- `URLDeduplicator.__init__`. -/
def initState (max_cache_size : Nat) (use_bloom : Bool) : DedupState :=
  ⟨[], [], if use_bloom then some [] else none, max_cache_size, 0, 0, 0, 0⟩

/-- Python `dict.get(k, dflt)` on the frequency table. -/
def dictGet (d : List (Str × Nat)) (k : Str) (dflt : Nat) : Nat :=
  match d with
  | [] => dflt
  | (k', v) :: rest => if k' = k then v else dictGet rest k dflt

/-- Python `d[k] = v` (update in place, else append). -/
def dictSet (d : List (Str × Nat)) (k : Str) (v : Nat) : List (Str × Nat) :=
  match d with
  | [] => [(k, v)]
  | (k', v') :: rest =>
    if k' = k then (k', v) :: rest else (k', v') :: dictSet rest k v

/-- Python `set.add`. -/
def setAdd (s : List Str) (x : Str) : List Str := if x ∈ s then s else s ++ [x]

/-- Membership test of the scalable bloom filter: an inserted key is always
reported present (no false negatives); an absent key may be falsely reported
present (`fp`) once the filter is non-empty; an empty filter reports
everything absent. -/
def bloomHas (filt : List Str) (item : Str) (fp : Bool) : Bool :=
  decide (item ∈ filt) || (!filt.isEmpty && fp)

/-- `bloom_filter.add`. -/
def bloomAdd (filt : List Str) (item : Str) : List Str :=
  if item ∈ filt then filt else filt ++ [item]

/-- `URLDeduplicator._normalize_query_parameters` (note: `keep_blank_values
= True` here, and a *five*-element tracking set, unlike the normalizer). -/
def tracking_params : List Str :=
  [chars "utm_source", chars "utm_medium", chars "utm_campaign",
   chars "fbclid", chars "ref"]

/-- Model of `URLDeduplicator._normalize_query_parameters`; `urlparse` can
raise (propagated to `is_duplicate`'s outer `except`). -/
def normalize_query_parameters (url : Str) : Except Str Str :=
  match urlparseE url with
  | .error e => .error e
  | .ok p =>
    let query_params := parseQs true p.query
    let qp2 := query_params.filter (fun kv => decide (kv.1 ∉ tracking_params))
    if qp2 ≠ [] then
      .ok (p.scheme ++ chars "://" ++ p.netloc ++ p.path ++
        '?' :: urlencode (sortByName qp2))
    else
      .ok (p.scheme ++ chars "://" ++ p.netloc ++ p.path)

/-- `URLDeduplicator._evict_cache` (including the `_should_evict_cache`
guard).  `int(max_cache_size * 0.75)` is `⌊max · 3/4⌋`; `0.75` is a dyadic
rational, so the floating-point product is exact for every realistic size. -/
def evict_cache (st : DedupState) : DedupState :=
  if st.seen_urls.length ≥ st.max_cache_size then
    let sorted_urls := stableSort (fun a b => decide (b.2 ≤ a.2)) st.url_frequency
    let urls_to_keep :=
      (sorted_urls.take (st.max_cache_size * 3 / 4)).map Prod.fst
    { st with
        seen_urls := urls_to_keep,
        url_frequency :=
          st.url_frequency.filter (fun kv => decide (kv.1 ∈ urls_to_keep)),
        cache_evictions := st.cache_evictions + 1 }
  else st

/-- The per-call oracles: `fpHit` is the bloom filter's false-positive
decision for this call's membership query; the three `Option Str` fields
model a fault (raised exception with the given message) of the hash library,
the filter's membership test, and the filter's `add`. -/
structure CallCtx where
  fpHit : Bool
  hashFault : Option Str
  queryFault : Option Str
  addFault : Option Str
deriving Repr, DecidableEq

/-- A fault-free call context. -/
def noFaults (fp : Bool) : CallCtx := ⟨fp, none, none, none⟩

/-- The shared insertion step (`seen_urls.add`, `url_frequency[h] = 1`,
`unique_urls += 1`) — these three lines appear both in the bloom fast path
and in the exact-cache branch of `is_duplicate`. -/
def insertNew (st : DedupState) (url_hash : Str) : DedupState :=
  { st with
      seen_urls := setAdd st.seen_urls url_hash,
      url_frequency := dictSet st.url_frequency url_hash 1,
      unique_urls := st.unique_urls + 1 }

/-- The exact-cache branch of `is_duplicate` (lines 141–164 of
deduplication.py): exact-duplicate hit, else insert and maybe evict. -/
def exactPath (st : DedupState) (url_hash nu : Str) :
    DeduplicationResult × DedupState :=
  if url_hash ∈ st.seen_urls then
    (⟨true, url_hash, nu, some (chars "Exact duplicate")⟩,
     { st with
         url_frequency :=
           dictSet st.url_frequency url_hash (dictGet st.url_frequency url_hash 0 + 1),
         duplicates := st.duplicates + 1 })
  else
    (⟨false, url_hash, nu, none⟩, evict_cache (insertNew st url_hash))

/-- The body of `is_duplicate`'s `try` block after the `total_urls` bump.
An `Except.error` models an exception escaping to the outer handler; by the
structure of the code no fallible operation runs after the first state
mutation of the call (beyond the already-performed counter bump). -/
def isDupBody (hashFn : Str → Str) (ctx : CallCtx) (st : DedupState)
    (url : Str) : Except Str (DeduplicationResult × DedupState) :=
  match normalize url with
  | none => .ok (⟨true, [], url, some (chars "Invalid URL format")⟩, st)
  | some nu0 =>
    if nu0 = [] then .ok (⟨true, [], url, some (chars "Invalid URL format")⟩, st)
    else
      match normalize_query_parameters nu0 with
      | .error e => .error e
      | .ok nu =>
        match ctx.hashFault with
        | some e => .error e
        | none =>
          let url_hash := hashFn nu
          match st.bloom with
          | some filt =>
            match ctx.queryFault with
            | some e => .error e
            | none =>
              if bloomHas filt nu ctx.fpHit then .ok (exactPath st url_hash nu)
              else
                match ctx.addFault with
                | some e => .error e
                | none =>
                  .ok (⟨false, url_hash, nu, none⟩,
                    { insertNew st url_hash with bloom := some (bloomAdd filt nu) })
          | none => .ok (exactPath st url_hash nu)

/-- Model of `URLDeduplicator.is_duplicate`: bump `total_urls`, run the
body, convert any escaped exception into the fail-safe duplicate result. -/
def is_duplicate (hashFn : Str → Str) (ctx : CallCtx) (st : DedupState)
    (url : Str) : DeduplicationResult × DedupState :=
  let st1 := { st with total_urls := st.total_urls + 1 }
  match isDupBody hashFn ctx st1 url with
  | .ok out => out
  | .error e => (⟨true, [], url, some (chars "Error: " ++ e)⟩, st1)

/-- Model of `URLDeduplicator.clear_cache`. -/
def clear_cache (st : DedupState) : DedupState :=
  { st with
      seen_urls := [],
      url_frequency := [],
      bloom := st.bloom.map (fun _ => []),
      cache_evictions := st.cache_evictions + 1 }

/-- Model of `URLDeduplicator.add_batch`. -/
def add_batch (hashFn : Str → Str) (st : DedupState)
    (reqs : List (Str × CallCtx)) : DedupState × List DeduplicationResult :=
  match reqs with
  | [] => (st, [])
  | (url, ctx) :: rest =>
    let out := is_duplicate hashFn ctx st url
    let tail := add_batch hashFn out.2 rest
    (tail.1, out.1 :: tail.2)

/-- One public operation on a deduplicator. -/
inductive DedupOp where
  | check (url : Str) (ctx : CallCtx)
  | clear
  | batch (reqs : List (Str × CallCtx))
deriving Repr

/-- Run one operation, collecting the `DeduplicationResult`s it returns. -/
def runOp (hashFn : Str → Str) (st : DedupState) :
    DedupOp → DedupState × List DeduplicationResult
  | .check url ctx =>
    let out := is_duplicate hashFn ctx st url
    (out.2, [out.1])
  | .clear => (clear_cache st, [])
  | .batch reqs =>
    let out := add_batch hashFn st reqs
    (out.1, out.2)

/-- Run a sequence of operations from a state, collecting all results. -/
def runOps (hashFn : Str → Str) (st : DedupState) :
    List DedupOp → DedupState × List DeduplicationResult
  | [] => (st, [])
  | op :: rest =>
    let out := runOp hashFn st op
    let tail := runOps hashFn out.1 rest
    (tail.1, out.2 ++ tail.2)

/-- The representation and coherence invariant of the deduplicator state:
the membership cache is duplicate-free, the frequency table has
duplicate-free keys, both cover exactly the same keys, and every stored
frequency is positive. -/
def Inv (st : DedupState) : Prop :=
  st.seen_urls.Nodup ∧ (st.url_frequency.map Prod.fst).Nodup ∧
  (∀ k, k ∈ st.seen_urls ↔ k ∈ st.url_frequency.map Prod.fst) ∧
  (∀ kv ∈ st.url_frequency, 0 < kv.2)

/-- A check result that counted neither as duplicate nor as unique: the
malformed-input result or the fail-safe internal-error result. -/
def badResult (r : DeduplicationResult) : Bool :=
  match r.reason with
  | none => false
  | some s => s = chars "Invalid URL format" || (chars "Error: ").isPrefixOf s

/-- Number of `is_duplicate` calls an operation performs. -/
def opChecks : DedupOp → Nat
  | .check _ _ => 1
  | .clear => 0
  | .batch reqs => reqs.length

/-- Number of `is_duplicate` calls a sequence of operations performs. -/
def numChecks (ops : List DedupOp) : Nat := (ops.map opChecks).sum

/-- Number of malformed-input / internal-error results in a result list. -/
def countBad (rs : List DeduplicationResult) : Nat := rs.countP badResult

/-- A concrete eviction scenario: four cached keys with frequencies
3, 1, 2, 5 and `max_cache_size = 4`; the top `⌊4 · 0.75⌋ = 3` keys
survive. -/
def evictDemoState : DedupState :=
  ⟨[chars "a", chars "b", chars "c", chars "d"],
   [(chars "a", 3), (chars "b", 1), (chars "c", 2), (chars "d", 5)],
   none, 4, 4, 0, 4, 0⟩

/-! ## Lemmas about the stable sort -/

theorem insSorted_perm {α : Type} (le : α → α → Bool) (x : α) (l : List α) :
    List.Perm (insSorted le x l) (x :: l) := by
  induction l with
  | nil => simp [insSorted]
  | cons y ys ih =>
    simp only [insSorted]
    split
    · exact List.Perm.refl _
    · exact (ih.cons y).trans (List.Perm.swap x y ys)

theorem stableSort_perm {α : Type} (le : α → α → Bool) (l : List α) :
    List.Perm (stableSort le l) l := by
  induction l with
  | nil => simp [stableSort]
  | cons x xs ih =>
    exact (insSorted_perm le x (stableSort le xs)).trans (ih.cons x)

theorem stableSort_length {α : Type} (le : α → α → Bool) (l : List α) :
    (stableSort le l).length = l.length :=
  (stableSort_perm le l).length_eq

theorem insSorted_pairwise {α : Type} {le : α → α → Bool}
    (htot : ∀ a b, le a b = true ∨ le b a = true)
    (htrans : ∀ a b c, le a b = true → le b c = true → le a c = true)
    (x : α) {l : List α} (h : l.Pairwise (fun a b => le a b = true)) :
    (insSorted le x l).Pairwise (fun a b => le a b = true) := by
  induction l with
  | nil => simp [insSorted]
  | cons y ys ih =>
    rcases List.pairwise_cons.mp h with ⟨hy, hys⟩
    simp only [insSorted]
    split
    case isTrue hxy =>
      refine List.pairwise_cons.mpr ⟨?_, h⟩
      intro z hz
      rcases List.mem_cons.mp hz with rfl | hz
      · exact hxy
      · exact htrans x y z hxy (hy z hz)
    case isFalse hxy =>
      have hyx : le y x = true := by
        rcases htot x y with h' | h'
        · exact absurd h' hxy
        · exact h'
      refine List.pairwise_cons.mpr ⟨?_, ih hys⟩
      intro z hz
      have hz' : z ∈ x :: ys := (insSorted_perm le x ys).subset hz
      rcases List.mem_cons.mp hz' with rfl | hz'
      · exact hyx
      · exact hy z hz'

theorem stableSort_pairwise {α : Type} {le : α → α → Bool}
    (htot : ∀ a b, le a b = true ∨ le b a = true)
    (htrans : ∀ a b c, le a b = true → le b c = true → le a c = true)
    (l : List α) :
    (stableSort le l).Pairwise (fun a b => le a b = true) := by
  induction l with
  | nil => simp [stableSort]
  | cons x xs ih => exact insSorted_pairwise htot htrans x ih

theorem stableSort_of_pairwise {α : Type} {le : α → α → Bool} {l : List α}
    (h : l.Pairwise (fun a b => le a b = true)) : stableSort le l = l := by
  induction l with
  | nil => rfl
  | cons x xs ih =>
    rcases List.pairwise_cons.mp h with ⟨hx, hxs⟩
    simp only [stableSort, ih hxs]
    cases xs with
    | nil => rfl
    | cons y ys => simp [insSorted, hx y (List.mem_cons_self y ys)]

/-! ## Lemmas about the dict / set models -/

theorem mem_dictSet {d : List (Str × Nat)} {k : Str} {v : Nat}
    {kv : Str × Nat} (h : kv ∈ dictSet d k v) : kv = (k, v) ∨ kv ∈ d := by
  induction d with
  | nil => simpa [dictSet] using h
  | cons p rest ih =>
    obtain ⟨k', v'⟩ := p
    by_cases hk : k' = k
    · subst hk
      simp only [dictSet, if_pos rfl] at h
      rcases List.mem_cons.mp h with rfl | h
      · exact Or.inl rfl
      · exact Or.inr (List.mem_cons_of_mem _ h)
    · simp only [dictSet, if_neg hk] at h
      rcases List.mem_cons.mp h with rfl | h
      · exact Or.inr (List.mem_cons_self _ _)
      · rcases ih h with h' | h'
        · exact Or.inl h'
        · exact Or.inr (List.mem_cons_of_mem _ h')

theorem dictSet_keys {d : List (Str × Nat)} (k : Str) (v : Nat) :
    (dictSet d k v).map Prod.fst =
      if k ∈ d.map Prod.fst then d.map Prod.fst else d.map Prod.fst ++ [k] := by
  induction d with
  | nil => simp [dictSet]
  | cons p rest ih =>
    obtain ⟨k', v'⟩ := p
    by_cases hk : k' = k
    · subst hk
      simp [dictSet]
    · simp only [dictSet, if_neg hk, List.map_cons, ih]
      by_cases hm : k ∈ rest.map Prod.fst
      · simp [hm, hk, Ne.symm hk]
      · simp [hm, hk, Ne.symm hk]

theorem dictGet_eq_of_mem {d : List (Str × Nat)} {k : Str} {v : Nat}
    (hnd : (d.map Prod.fst).Nodup) (h : (k, v) ∈ d) : dictGet d k 0 = v := by
  induction d with
  | nil => simp at h
  | cons p rest ih =>
    obtain ⟨k', v'⟩ := p
    simp only [List.map_cons, List.nodup_cons] at hnd
    rcases List.mem_cons.mp h with heq | h
    · rw [Prod.mk.injEq] at heq
      obtain ⟨rfl, rfl⟩ := heq
      simp [dictGet]
    · have hk : k' ≠ k := by
        intro hkk
        subst hkk
        exact hnd.1 (List.mem_map_of_mem Prod.fst h)
      simp [dictGet, hk, ih hnd.2 h]

theorem mem_of_dictGet {d : List (Str × Nat)} {k : Str}
    (hk : k ∈ d.map Prod.fst) : (k, dictGet d k 0) ∈ d := by
  induction d with
  | nil => simp at hk
  | cons p rest ih =>
    obtain ⟨k', v'⟩ := p
    by_cases hkk : k' = k
    · subst hkk
      simp [dictGet]
    · simp only [List.map_cons, List.mem_cons] at hk
      rcases hk with rfl | hk
      · exact absurd rfl hkk
      · simp only [dictGet, if_neg hkk]
        exact List.mem_cons_of_mem _ (ih hk)

theorem mem_setAdd {s : List Str} {x k : Str} :
    k ∈ setAdd s x ↔ k ∈ s ∨ k = x := by
  unfold setAdd
  split
  case isTrue h =>
    constructor
    · exact Or.inl
    · rintro (hk | rfl)
      · exact hk
      · exact h
  case isFalse h => simp [List.mem_append]

theorem setAdd_nodup {s : List Str} {x : Str} (h : s.Nodup) :
    (setAdd s x).Nodup := by
  unfold setAdd
  split
  case isTrue _ => exact h
  case isFalse hx =>
    refine List.Nodup.append h (List.nodup_singleton x) ?_
    intro a ha hax
    rw [List.mem_singleton] at hax
    exact hx (hax ▸ ha)

theorem setAdd_length {s : List Str} {x : Str} :
    (setAdd s x).length ≤ s.length + 1 := by
  unfold setAdd
  split
  · omega
  · simp

/-! ## Eviction (claim C4 and supporting facts) -/

/-- The descending-frequency comparison used by `_evict_cache`
(`key=lambda x: x[1], reverse=True`; a stable sort with this comparison is
exactly CPython's `sorted(..., reverse=True)`). -/
def freqLe (a b : Str × Nat) : Bool := decide (b.2 ≤ a.2)

theorem freqLe_total : ∀ a b, freqLe a b = true ∨ freqLe b a = true := by
  intro a b
  simp only [freqLe, decide_eq_true_eq]
  omega

theorem freqLe_trans :
    ∀ a b c, freqLe a b = true → freqLe b c = true → freqLe a c = true := by
  intro a b c
  simp only [freqLe, decide_eq_true_eq]
  omega

theorem mem_keys_filter {d : List (Str × Nat)} {keep : List Str} {k : Str} :
    (k ∈ (d.filter (fun kv => decide (kv.1 ∈ keep))).map Prod.fst) ↔
      (k ∈ d.map Prod.fst ∧ k ∈ keep) := by
  constructor
  · intro h
    obtain ⟨kv, hkv, rfl⟩ := List.mem_map.mp h
    have := List.mem_filter.mp hkv
    exact ⟨List.mem_map_of_mem Prod.fst this.1, of_decide_eq_true this.2⟩
  · rintro ⟨h1, h2⟩
    obtain ⟨kv, hkv, rfl⟩ := List.mem_map.mp h1
    exact List.mem_map_of_mem Prod.fst
      (List.mem_filter.mpr ⟨hkv, decide_eq_true h2⟩)

theorem evict_cache_spec (st : DedupState)
    (hnd : (st.url_frequency.map Prod.fst).Nodup)
    (hsnd : st.seen_urls.Nodup)
    (hcov : ∀ k, k ∈ st.seen_urls ↔ k ∈ st.url_frequency.map Prod.fst)
    (hfull : st.max_cache_size ≤ st.seen_urls.length) :
    ((evict_cache st).seen_urls.length = st.max_cache_size * 3 / 4) ∧
    (∀ k, k ∈ (evict_cache st).seen_urls ↔
        k ∈ (evict_cache st).url_frequency.map Prod.fst) ∧
    (∀ k ∈ (evict_cache st).seen_urls, k ∈ st.seen_urls) ∧
    (∀ a b, a ∈ st.seen_urls → b ∈ st.seen_urls →
      dictGet st.url_frequency b 0 < dictGet st.url_frequency a 0 →
      b ∈ (evict_cache st).seen_urls → a ∈ (evict_cache st).seen_urls) := by
  have hguard : st.seen_urls.length ≥ st.max_cache_size := hfull
  simp only [evict_cache, if_pos hguard]
  set F := st.url_frequency with hF
  set kn := st.max_cache_size * 3 / 4 with hkn
  have hperm : List.Perm (stableSort freqLe F) F := stableSort_perm freqLe F
  have hkperm : List.Perm ((stableSort freqLe F).map Prod.fst) (F.map Prod.fst) :=
    hperm.map Prod.fst
  have hpw := stableSort_pairwise freqLe_total freqLe_trans F
  have hFlen : st.max_cache_size ≤ F.length := by
    have hsub : st.seen_urls ⊆ F.map Prod.fst := fun k hk => (hcov k).mp hk
    have := (hsnd.subperm hsub).length_le
    simpa using le_trans hfull this
  have hkeepsub : ∀ k, k ∈ ((stableSort freqLe F).take kn).map Prod.fst →
      k ∈ F.map Prod.fst := by
    intro k hk
    obtain ⟨kv, hkv, rfl⟩ := List.mem_map.mp hk
    exact List.mem_map_of_mem Prod.fst (hperm.subset (List.take_subset _ _ hkv))
  refine ⟨?_, ?_, ?_, ?_⟩
  · -- size after eviction
    rw [List.length_map, List.length_take, stableSort_length]
    have : kn ≤ F.length := le_trans (by omega) hFlen
    omega
  · -- cache and frequency table cover the same keys
    intro k
    rw [mem_keys_filter]
    constructor
    · intro h
      exact ⟨hkeepsub k h, h⟩
    · exact fun h => h.2
  · -- only previously cached keys survive
    intro k hk
    exact (hcov k).mpr (hkeepsub k hk)
  · -- monotone ranking
    intro a b ha hb hlt hbkeep
    have haF : a ∈ F.map Prod.fst := (hcov a).mp ha
    have hapair : (a, dictGet F a 0) ∈ F := mem_of_dictGet haF
    obtain ⟨pb, hpbtake, hpbfst⟩ := List.mem_map.mp hbkeep
    obtain ⟨b', vb⟩ := pb
    have hb : b' = b := hpbfst
    rw [hb] at hpbtake
    have hpbF : (b, vb) ∈ F := hperm.subset (List.take_subset _ _ hpbtake)
    have hvb : vb = dictGet F b 0 := (dictGet_eq_of_mem hnd hpbF).symm
    have hain : (a, dictGet F a 0) ∈ stableSort freqLe F :=
      hperm.symm.subset hapair
    have hsplit := List.take_append_drop kn (stableSort freqLe F)
    rw [← hsplit] at hain
    rcases List.mem_append.mp hain with hin | hin
    · exact List.mem_map.mpr ⟨(a, dictGet F a 0), hin, rfl⟩
    · exfalso
      rw [← hsplit] at hpw
      have hrel := (List.pairwise_append.mp hpw).2.2 (b, vb) hpbtake
        (a, dictGet F a 0) hin
      simp only [freqLe, decide_eq_true_eq] at hrel
      omega

/-- C4: eviction retains exactly `⌊max_cache_size · 0.75⌋` keys of highest
frequency, drops the rest from both the membership cache and the frequency
table (afterwards the two structures still cover the same keys and nothing
new appears), and ranking is monotone: if a key survives, every cached key
of strictly higher frequency also survives.  Hypotheses are the state
invariant maintained by the deduplicator (duplicate-free cache, cache =
keys of the frequency table) plus the eviction trigger (`len(seen_urls) ≥
max_cache_size`). -/
theorem C4_eviction_retains_top_frequencies (st : DedupState)
    (hnd : (st.url_frequency.map Prod.fst).Nodup)
    (hsnd : st.seen_urls.Nodup)
    (hcov : ∀ k, k ∈ st.seen_urls ↔ k ∈ st.url_frequency.map Prod.fst)
    (hfull : st.max_cache_size ≤ st.seen_urls.length) :
    ((evict_cache st).seen_urls.length = st.max_cache_size * 3 / 4) ∧
    (∀ k, k ∈ (evict_cache st).seen_urls ↔
        k ∈ (evict_cache st).url_frequency.map Prod.fst) ∧
    (∀ k ∈ (evict_cache st).seen_urls, k ∈ st.seen_urls) ∧
    (∀ a b, a ∈ st.seen_urls → b ∈ st.seen_urls →
      dictGet st.url_frequency b 0 < dictGet st.url_frequency a 0 →
      b ∈ (evict_cache st).seen_urls → a ∈ (evict_cache st).seen_urls) :=
  evict_cache_spec st hnd hsnd hcov hfull

/-- Witness for C4 at `evictDemoState`. -/
theorem C4_eviction_witness :
    (evict_cache evictDemoState).seen_urls.length = 4 * 3 / 4 ∧
    (chars "a") ∈ (evict_cache evictDemoState).seen_urls := by
  have h := C4_eviction_retains_top_frequencies evictDemoState
    (by decide) (by decide) (fun k => Iff.rfl) (by decide)
  refine ⟨h.1, ?_⟩
  exact h.2.2.2 (chars "a") (chars "c") (by decide) (by decide) (by decide)
    (by decide)

/-! ## State invariant preservation (claims C9, C10, C1) -/

theorem dictSet_keys_nodup {d : List (Str × Nat)} {k : Str} {v : Nat}
    (hnd : (d.map Prod.fst).Nodup) : ((dictSet d k v).map Prod.fst).Nodup := by
  rw [dictSet_keys]
  split
  · exact hnd
  case isFalse h =>
    refine List.Nodup.append hnd (List.nodup_singleton k) ?_
    intro a ha hax
    rw [List.mem_singleton] at hax
    exact h (hax ▸ ha)

theorem dictSet_pos {d : List (Str × Nat)} {k : Str} {v : Nat}
    (hpos : ∀ kv ∈ d, 0 < kv.2) (hv : 0 < v) :
    ∀ kv ∈ dictSet d k v, 0 < kv.2 := by
  intro kv hkv
  rcases mem_dictSet hkv with rfl | h
  · exact hv
  · exact hpos kv h

theorem insertNew_inv {st : DedupState} {h : Str} (hInv : Inv st) :
    Inv (insertNew st h) := by
  obtain ⟨h1, h2, h3, h4⟩ := hInv
  refine ⟨setAdd_nodup h1, dictSet_keys_nodup h2, ?_, dictSet_pos h4 Nat.one_pos⟩
  intro k
  show k ∈ setAdd st.seen_urls h ↔ k ∈ (dictSet st.url_frequency h 1).map Prod.fst
  rw [mem_setAdd, dictSet_keys]
  split
  case isTrue hmem =>
    constructor
    · rintro (hk | rfl)
      · exact (h3 k).mp hk
      · exact hmem
    · intro hk
      exact Or.inl ((h3 k).mpr hk)
  case isFalse hmem =>
    rw [List.mem_append, List.mem_singleton]
    constructor
    · rintro (hk | rfl)
      · exact Or.inl ((h3 k).mp hk)
      · exact Or.inr rfl
    · rintro (hk | rfl)
      · exact Or.inl ((h3 k).mpr hk)
      · exact Or.inr rfl

theorem insertNew_seen_length {st : DedupState} {h : Str}
    (hn : h ∉ st.seen_urls) :
    (insertNew st h).seen_urls.length = st.seen_urls.length + 1 := by
  simp [insertNew, setAdd, hn]

theorem evict_cache_counters (st : DedupState) :
    (evict_cache st).total_urls = st.total_urls ∧
    (evict_cache st).duplicates = st.duplicates ∧
    (evict_cache st).unique_urls = st.unique_urls ∧
    (evict_cache st).max_cache_size = st.max_cache_size ∧
    (evict_cache st).bloom = st.bloom := by
  unfold evict_cache
  split <;> exact ⟨rfl, rfl, rfl, rfl, rfl⟩

theorem evict_cache_of_lt {st : DedupState}
    (h : st.seen_urls.length < st.max_cache_size) : evict_cache st = st := by
  unfold evict_cache
  rw [if_neg (by omega)]

theorem evict_cache_inv (st : DedupState) (hInv : Inv st) :
    Inv (evict_cache st) := by
  by_cases hg : st.max_cache_size ≤ st.seen_urls.length
  · obtain ⟨h1, h2, h3, h4⟩ := hInv
    have hspec := evict_cache_spec st h2 h1 h3 hg
    have hguard : st.seen_urls.length ≥ st.max_cache_size := hg
    have hnd' : ((stableSort freqLe st.url_frequency).map Prod.fst).Nodup :=
      ((stableSort_perm freqLe st.url_frequency).map Prod.fst).nodup_iff.mpr h2
    refine ⟨?_, ?_, hspec.2.1, ?_⟩
    · simp only [evict_cache, if_pos hguard]
      rw [List.map_take]
      exact List.Sublist.nodup (List.take_sublist _ _) hnd'
    · simp only [evict_cache, if_pos hguard]
      exact List.Sublist.nodup ((List.filter_sublist _).map Prod.fst) h2
    · simp only [evict_cache, if_pos hguard]
      intro kv hkv
      exact h4 kv (List.mem_filter.mp hkv).1
  · rw [evict_cache_of_lt (by omega)]
    exact hInv

theorem exactPath_spec (st : DedupState) (h nu : Str) (hInv : Inv st) :
    Inv (exactPath st h nu).2 ∧
    (exactPath st h nu).2.bloom = st.bloom ∧
    (exactPath st h nu).2.max_cache_size = st.max_cache_size ∧
    (exactPath st h nu).2.total_urls = st.total_urls ∧
    (exactPath st h nu).2.duplicates + (exactPath st h nu).2.unique_urls =
      st.duplicates + st.unique_urls + 1 ∧
    badResult (exactPath st h nu).1 = false ∧
    (st.seen_urls.length ≤ st.max_cache_size →
      (exactPath st h nu).2.seen_urls.length ≤ st.max_cache_size) ∧
    (st.cache_evictions < (exactPath st h nu).2.cache_evictions →
      (exactPath st h nu).2.seen_urls.length = st.max_cache_size * 3 / 4) := by
  obtain ⟨h1, h2, h3, h4⟩ := hInv
  unfold exactPath
  split
  case isTrue hmem =>
    refine ⟨⟨h1, dictSet_keys_nodup h2, ?_, dictSet_pos h4 (Nat.succ_pos _)⟩,
      rfl, rfl, rfl,
      by show st.duplicates + 1 + st.unique_urls =
           st.duplicates + st.unique_urls + 1
         omega,
      rfl, fun hl => hl, fun he => absurd he (lt_irrefl _)⟩
    intro k
    show k ∈ st.seen_urls ↔
      k ∈ (dictSet st.url_frequency h (dictGet st.url_frequency h 0 + 1)).map
        Prod.fst
    rw [dictSet_keys, if_pos ((h3 h).mp hmem)]
    exact h3 k
  case isFalse hmem =>
    have hIns : Inv (insertNew st h) := insertNew_inv ⟨h1, h2, h3, h4⟩
    have hC := evict_cache_counters (insertNew st h)
    have hlen : (insertNew st h).seen_urls.length = st.seen_urls.length + 1 :=
      insertNew_seen_length hmem
    have hmax : (insertNew st h).max_cache_size = st.max_cache_size := rfl
    have hce : (insertNew st h).cache_evictions = st.cache_evictions := rfl
    refine ⟨evict_cache_inv _ hIns, hC.2.2.2.2, hC.2.2.2.1, hC.1, ?_, rfl,
      ?_, ?_⟩
    · rw [hC.2.1, hC.2.2.1]
      show st.duplicates + (st.unique_urls + 1) =
        st.duplicates + st.unique_urls + 1
      omega
    · intro hl
      show (evict_cache (insertNew st h)).seen_urls.length ≤ st.max_cache_size
      by_cases hg : st.max_cache_size ≤ (insertNew st h).seen_urls.length
      · obtain ⟨i1, i2, i3, i4⟩ := hIns
        have hsp := (evict_cache_spec (insertNew st h) i2 i1 i3 (by omega)).1
        rw [hsp, hmax]
        omega
      · rw [evict_cache_of_lt (by omega)]
        omega
    · intro he
      have he' : st.cache_evictions <
          (evict_cache (insertNew st h)).cache_evictions := he
      show (evict_cache (insertNew st h)).seen_urls.length =
        st.max_cache_size * 3 / 4
      by_cases hg : st.max_cache_size ≤ (insertNew st h).seen_urls.length
      · obtain ⟨i1, i2, i3, i4⟩ := hIns
        have hsp := (evict_cache_spec (insertNew st h) i2 i1 i3 (by omega)).1
        rw [hsp, hmax]
      · rw [evict_cache_of_lt (by omega)] at he'
        exfalso
        omega

theorem isDupBody_spec (hashFn : Str → Str) (ctx : CallCtx) (st : DedupState)
    (url : Str) (hInv : Inv st) (r : DeduplicationResult) (s' : DedupState)
    (heq : isDupBody hashFn ctx st url = .ok (r, s')) :
    Inv s' ∧
    s'.max_cache_size = st.max_cache_size ∧
    s'.total_urls = st.total_urls ∧
    s'.duplicates + s'.unique_urls + (if badResult r then 1 else 0) =
      st.duplicates + st.unique_urls + 1 ∧
    (st.bloom = none → s'.bloom = none) ∧
    (st.bloom = none → st.seen_urls.length ≤ st.max_cache_size →
      s'.seen_urls.length ≤ st.max_cache_size) ∧
    (st.bloom = none → st.cache_evictions < s'.cache_evictions →
      s'.seen_urls.length = st.max_cache_size * 3 / 4) := by
  unfold isDupBody at heq
  cases hn : normalize url with
  | none =>
    rw [hn] at heq
    dsimp only at heq
    simp only [Except.ok.injEq, Prod.mk.injEq] at heq
    obtain ⟨rfl, rfl⟩ := heq
    refine ⟨hInv, rfl, rfl, ?_, fun hb => hb, fun _ hl => hl,
      fun _ he => absurd he (lt_irrefl _)⟩
    show st.duplicates + st.unique_urls + 1 = st.duplicates + st.unique_urls + 1
    rfl
  | some nu0 =>
    rw [hn] at heq
    dsimp only at heq
    by_cases h0 : nu0 = []
    · rw [if_pos h0] at heq
      simp only [Except.ok.injEq, Prod.mk.injEq] at heq
      obtain ⟨rfl, rfl⟩ := heq
      refine ⟨hInv, rfl, rfl, ?_, fun hb => hb, fun _ hl => hl,
        fun _ he => absurd he (lt_irrefl _)⟩
      show st.duplicates + st.unique_urls + 1 =
        st.duplicates + st.unique_urls + 1
      rfl
    · rw [if_neg h0] at heq
      cases hq : normalize_query_parameters nu0 with
      | error e => rw [hq] at heq; dsimp only at heq; cases heq
      | ok nu =>
        rw [hq] at heq
        dsimp only at heq
        cases hhf : ctx.hashFault with
        | some e => rw [hhf] at heq; dsimp only at heq; cases heq
        | none =>
          rw [hhf] at heq
          dsimp only at heq
          cases hbl : st.bloom with
          | some filt =>
            rw [hbl] at heq
            dsimp only at heq
            cases hqf : ctx.queryFault with
            | some e => rw [hqf] at heq; dsimp only at heq; cases heq
            | none =>
              rw [hqf] at heq
              dsimp only at heq
              by_cases hhas : bloomHas filt nu ctx.fpHit
              · rw [if_pos hhas] at heq
                simp only [Except.ok.injEq] at heq
                have hsp := exactPath_spec st (hashFn nu) nu hInv
                rw [heq] at hsp
                refine ⟨hsp.1, hsp.2.2.1, hsp.2.2.2.1, ?_,
                  fun hb => Option.noConfusion hb,
                  fun hb => Option.noConfusion hb,
                  fun hb => Option.noConfusion hb⟩
                have hbad : badResult r = false := hsp.2.2.2.2.2.1
                rw [hbad]
                have hsum : s'.duplicates + s'.unique_urls =
                    st.duplicates + st.unique_urls + 1 := hsp.2.2.2.2.1
                show s'.duplicates + s'.unique_urls + 0 =
                  st.duplicates + st.unique_urls + 1
                omega
              · rw [if_neg hhas] at heq
                cases haf : ctx.addFault with
                | some e => rw [haf] at heq; dsimp only at heq; cases heq
                | none =>
                  rw [haf] at heq
                  dsimp only at heq
                  simp only [Except.ok.injEq, Prod.mk.injEq] at heq
                  obtain ⟨rfl, rfl⟩ := heq
                  refine ⟨insertNew_inv hInv, rfl, rfl, ?_,
                    fun hb => Option.noConfusion hb,
                    fun hb => Option.noConfusion hb,
                    fun hb => Option.noConfusion hb⟩
                  show st.duplicates + (st.unique_urls + 1) + 0 =
                    st.duplicates + st.unique_urls + 1
                  omega
          | none =>
            rw [hbl] at heq
            dsimp only at heq
            simp only [Except.ok.injEq] at heq
            have hsp := exactPath_spec st (hashFn nu) nu hInv
            rw [heq] at hsp
            refine ⟨hsp.1, hsp.2.2.1, hsp.2.2.2.1, ?_,
              fun _ => (show s'.bloom = st.bloom from hsp.2.1).trans hbl,
              fun _ hl => hsp.2.2.2.2.2.2.1 hl,
              fun _ he => hsp.2.2.2.2.2.2.2 he⟩
            have hbad : badResult r = false := hsp.2.2.2.2.2.1
            rw [hbad]
            have hsum : s'.duplicates + s'.unique_urls =
                st.duplicates + st.unique_urls + 1 := hsp.2.2.2.2.1
            show s'.duplicates + s'.unique_urls + 0 =
              st.duplicates + st.unique_urls + 1
            omega

theorem exactPath_total (st : DedupState) (h nu : Str) :
    (exactPath st h nu).2.total_urls = st.total_urls := by
  unfold exactPath
  split
  · rfl
  · exact (evict_cache_counters (insertNew st h)).1

theorem isDupBody_total (hashFn : Str → Str) (ctx : CallCtx) (st : DedupState)
    (url : Str) (r : DeduplicationResult) (s' : DedupState)
    (heq : isDupBody hashFn ctx st url = .ok (r, s')) :
    s'.total_urls = st.total_urls := by
  unfold isDupBody at heq
  cases hn : normalize url with
  | none =>
    rw [hn] at heq
    dsimp only at heq
    simp only [Except.ok.injEq, Prod.mk.injEq] at heq
    exact heq.2 ▸ rfl
  | some nu0 =>
    rw [hn] at heq
    dsimp only at heq
    by_cases h0 : nu0 = []
    · rw [if_pos h0] at heq
      simp only [Except.ok.injEq, Prod.mk.injEq] at heq
      exact heq.2 ▸ rfl
    · rw [if_neg h0] at heq
      cases hq : normalize_query_parameters nu0 with
      | error e => rw [hq] at heq; dsimp only at heq; cases heq
      | ok nu =>
        rw [hq] at heq
        dsimp only at heq
        cases hhf : ctx.hashFault with
        | some e => rw [hhf] at heq; dsimp only at heq; cases heq
        | none =>
          rw [hhf] at heq
          dsimp only at heq
          cases hbl : st.bloom with
          | some filt =>
            rw [hbl] at heq
            dsimp only at heq
            cases hqf : ctx.queryFault with
            | some e => rw [hqf] at heq; dsimp only at heq; cases heq
            | none =>
              rw [hqf] at heq
              dsimp only at heq
              by_cases hhas : bloomHas filt nu ctx.fpHit
              · rw [if_pos hhas] at heq
                simp only [Except.ok.injEq] at heq
                have := exactPath_total st (hashFn nu) nu
                rw [heq] at this
                exact this
              · rw [if_neg hhas] at heq
                cases haf : ctx.addFault with
                | some e => rw [haf] at heq; dsimp only at heq; cases heq
                | none =>
                  rw [haf] at heq
                  dsimp only at heq
                  simp only [Except.ok.injEq, Prod.mk.injEq] at heq
                  exact heq.2 ▸ rfl
          | none =>
            rw [hbl] at heq
            dsimp only at heq
            simp only [Except.ok.injEq] at heq
            have := exactPath_total st (hashFn nu) nu
            rw [heq] at this
            exact this

theorem is_duplicate_eq_ok {hashFn : Str → Str} {ctx : CallCtx}
    {st : DedupState} {url : Str} {out : DeduplicationResult × DedupState}
    (hb : isDupBody hashFn ctx { st with total_urls := st.total_urls + 1 } url
      = .ok out) : is_duplicate hashFn ctx st url = out := by
  show (match isDupBody hashFn ctx { st with total_urls := st.total_urls + 1 }
      url with
    | .ok o => o
    | .error e =>
      (⟨true, [], url, some (chars "Error: " ++ e)⟩,
       { st with total_urls := st.total_urls + 1 })) = out
  rw [hb]

theorem is_duplicate_eq_error {hashFn : Str → Str} {ctx : CallCtx}
    {st : DedupState} {url : Str} {e : Str}
    (hb : isDupBody hashFn ctx { st with total_urls := st.total_urls + 1 } url
      = .error e) :
    is_duplicate hashFn ctx st url =
      (⟨true, [], url, some (chars "Error: " ++ e)⟩,
       { st with total_urls := st.total_urls + 1 }) := by
  show (match isDupBody hashFn ctx { st with total_urls := st.total_urls + 1 }
      url with
    | .ok o => o
    | .error e =>
      (⟨true, [], url, some (chars "Error: " ++ e)⟩,
       { st with total_urls := st.total_urls + 1 })) = _
  rw [hb]

theorem is_duplicate_total (hashFn : Str → Str) (ctx : CallCtx)
    (st : DedupState) (url : Str) :
    (is_duplicate hashFn ctx st url).2.total_urls = st.total_urls + 1 := by
  cases hb : isDupBody hashFn ctx { st with total_urls := st.total_urls + 1 }
      url with
  | error e => rw [is_duplicate_eq_error hb]
  | ok out =>
    obtain ⟨r, s'⟩ := out
    rw [is_duplicate_eq_ok hb]
    exact isDupBody_total hashFn ctx _ url r s' hb

theorem is_duplicate_spec (hashFn : Str → Str) (ctx : CallCtx)
    (st : DedupState) (url : Str) (hInv : Inv st) :
    Inv (is_duplicate hashFn ctx st url).2 ∧
    (is_duplicate hashFn ctx st url).2.max_cache_size = st.max_cache_size ∧
    (is_duplicate hashFn ctx st url).2.duplicates +
        (is_duplicate hashFn ctx st url).2.unique_urls +
        (if badResult (is_duplicate hashFn ctx st url).1 then 1 else 0) =
      st.duplicates + st.unique_urls + 1 ∧
    (st.bloom = none → (is_duplicate hashFn ctx st url).2.bloom = none) ∧
    (st.bloom = none → st.seen_urls.length ≤ st.max_cache_size →
      (is_duplicate hashFn ctx st url).2.seen_urls.length ≤
        st.max_cache_size) ∧
    (st.bloom = none →
      st.cache_evictions < (is_duplicate hashFn ctx st url).2.cache_evictions →
      (is_duplicate hashFn ctx st url).2.seen_urls.length =
        st.max_cache_size * 3 / 4) := by
  have hInv1 : Inv { st with total_urls := st.total_urls + 1 } := hInv
  cases hb : isDupBody hashFn ctx { st with total_urls := st.total_urls + 1 }
      url with
  | error e =>
    rw [is_duplicate_eq_error hb]
    refine ⟨hInv, rfl, ?_, fun hb => hb, fun _ hl => hl,
      fun _ he => absurd he (lt_irrefl _)⟩
    have : badResult ⟨true, [], url, some (chars "Error: " ++ e)⟩ = true := by
      unfold badResult
      simp only [Bool.or_eq_true, decide_eq_true_eq]
      right
      show (chars "Error: ").isPrefixOf (chars "Error: " ++ e) = true
      rw [List.isPrefixOf_iff_prefix]
      exact ⟨e, rfl⟩
    rw [this]
    show st.duplicates + st.unique_urls + 1 = st.duplicates + st.unique_urls + 1
    rfl
  | ok out =>
    obtain ⟨r, s'⟩ := out
    rw [is_duplicate_eq_ok hb]
    have hsp := isDupBody_spec hashFn ctx _ url hInv1 r s' hb
    exact ⟨hsp.1, hsp.2.1, hsp.2.2.2.1, hsp.2.2.2.2.1, hsp.2.2.2.2.2.1,
      hsp.2.2.2.2.2.2⟩

theorem clear_cache_facts (st : DedupState) :
    Inv (clear_cache st) ∧
    (clear_cache st).max_cache_size = st.max_cache_size ∧
    (clear_cache st).total_urls = st.total_urls ∧
    (clear_cache st).duplicates = st.duplicates ∧
    (clear_cache st).unique_urls = st.unique_urls ∧
    (st.bloom = none → (clear_cache st).bloom = none) ∧
    (clear_cache st).seen_urls.length = 0 := by
  refine ⟨⟨List.nodup_nil, List.nodup_nil, fun k => Iff.rfl, fun kv hkv => ?_⟩,
    rfl, rfl, rfl, rfl, fun hb => ?_, rfl⟩
  · simp [clear_cache] at hkv
  · show st.bloom.map (fun _ => []) = none
    rw [hb]
    rfl

theorem add_batch_facts (hashFn : Str → Str) (reqs : List (Str × CallCtx)) :
    ∀ st : DedupState, Inv st →
    Inv (add_batch hashFn st reqs).1 ∧
    (add_batch hashFn st reqs).1.max_cache_size = st.max_cache_size ∧
    (add_batch hashFn st reqs).1.total_urls = st.total_urls + reqs.length ∧
    (add_batch hashFn st reqs).1.duplicates +
        (add_batch hashFn st reqs).1.unique_urls +
        countBad (add_batch hashFn st reqs).2 =
      st.duplicates + st.unique_urls + reqs.length ∧
    (st.bloom = none → (add_batch hashFn st reqs).1.bloom = none) ∧
    (st.bloom = none → st.seen_urls.length ≤ st.max_cache_size →
      (add_batch hashFn st reqs).1.seen_urls.length ≤ st.max_cache_size) := by
  induction reqs with
  | nil =>
    intro st hInv
    exact ⟨hInv, rfl, rfl, by show st.duplicates + st.unique_urls + 0 =
      st.duplicates + st.unique_urls + 0; rfl, fun hb => hb, fun _ hl => hl⟩
  | cons rc rest ih =>
    intro st hInv
    obtain ⟨url, ctx⟩ := rc
    have hc := is_duplicate_spec hashFn ctx st url hInv
    have ht := is_duplicate_total hashFn ctx st url
    have hrec := ih (is_duplicate hashFn ctx st url).2 hc.1
    have hout : add_batch hashFn st ((url, ctx) :: rest) =
        ((add_batch hashFn (is_duplicate hashFn ctx st url).2 rest).1,
         (is_duplicate hashFn ctx st url).1 ::
           (add_batch hashFn (is_duplicate hashFn ctx st url).2 rest).2) := rfl
    rw [hout]
    refine ⟨hrec.1, ?_, ?_, ?_, ?_, ?_⟩
    · rw [hrec.2.1, hc.2.1]
    · rw [hrec.2.2.1, ht]
      simp only [List.length_cons]
      omega
    · show (add_batch hashFn (is_duplicate hashFn ctx st url).2 rest).1.duplicates +
          (add_batch hashFn (is_duplicate hashFn ctx st url).2 rest).1.unique_urls +
          countBad ((is_duplicate hashFn ctx st url).1 ::
            (add_batch hashFn (is_duplicate hashFn ctx st url).2 rest).2) =
        st.duplicates + st.unique_urls + ((url, ctx) :: rest).length
      unfold countBad
      rw [List.countP_cons]
      have hsum := hrec.2.2.2.1
      unfold countBad at hsum
      have hcall := hc.2.2.1
      simp only [List.length_cons]
      by_cases hbr : badResult (is_duplicate hashFn ctx st url).1
      · rw [if_pos hbr] at hcall
        rw [if_pos hbr]
        omega
      · rw [if_neg hbr] at hcall
        rw [if_neg hbr]
        omega
    · intro hb
      exact hrec.2.2.2.2.1 (hc.2.2.2.1 hb)
    · intro hb hl
      have h1 := hc.2.2.2.2.1 hb hl
      rw [← hc.2.1] at h1
      have := hrec.2.2.2.2.2 (hc.2.2.2.1 hb) h1
      rw [hc.2.1] at this
      exact this

theorem runOps_facts (hashFn : Str → Str) (ops : List DedupOp) :
    ∀ st : DedupState, Inv st →
    Inv (runOps hashFn st ops).1 ∧
    (runOps hashFn st ops).1.max_cache_size = st.max_cache_size ∧
    (runOps hashFn st ops).1.total_urls = st.total_urls + numChecks ops ∧
    (runOps hashFn st ops).1.duplicates +
        (runOps hashFn st ops).1.unique_urls +
        countBad (runOps hashFn st ops).2 =
      st.duplicates + st.unique_urls + numChecks ops ∧
    (st.bloom = none → (runOps hashFn st ops).1.bloom = none) ∧
    (st.bloom = none → st.seen_urls.length ≤ st.max_cache_size →
      (runOps hashFn st ops).1.seen_urls.length ≤ st.max_cache_size) := by
  induction ops with
  | nil =>
    intro st hInv
    exact ⟨hInv, rfl, rfl, by show st.duplicates + st.unique_urls + 0 =
      st.duplicates + st.unique_urls + 0; rfl, fun hb => hb, fun _ hl => hl⟩
  | cons op rest ih =>
    intro st hInv
    have hstep :
        Inv (runOp hashFn st op).1 ∧
        (runOp hashFn st op).1.max_cache_size = st.max_cache_size ∧
        (runOp hashFn st op).1.total_urls = st.total_urls + opChecks op ∧
        (runOp hashFn st op).1.duplicates +
            (runOp hashFn st op).1.unique_urls +
            countBad (runOp hashFn st op).2 =
          st.duplicates + st.unique_urls + opChecks op ∧
        (st.bloom = none → (runOp hashFn st op).1.bloom = none) ∧
        (st.bloom = none → st.seen_urls.length ≤ st.max_cache_size →
          (runOp hashFn st op).1.seen_urls.length ≤ st.max_cache_size) := by
      cases op with
      | check url ctx =>
        have hc := is_duplicate_spec hashFn ctx st url hInv
        have ht := is_duplicate_total hashFn ctx st url
        refine ⟨hc.1, hc.2.1, ?_, ?_, hc.2.2.2.1, hc.2.2.2.2.1⟩
        · exact ht
        · show _ + _ + countBad [(is_duplicate hashFn ctx st url).1] = _
          unfold countBad
          rw [List.countP_cons]
          have hcall := hc.2.2.1
          show (is_duplicate hashFn ctx st url).2.duplicates +
              (is_duplicate hashFn ctx st url).2.unique_urls +
              (List.countP (fun r => badResult r) [] +
                if badResult (is_duplicate hashFn ctx st url).1 = true then 1
                else 0) =
            st.duplicates + st.unique_urls + 1
          simp only [List.countP_nil]
          omega
      | clear =>
        have hcf := clear_cache_facts st
        refine ⟨hcf.1, hcf.2.1, ?_, ?_, hcf.2.2.2.2.2.1, ?_⟩
        · show (clear_cache st).total_urls = st.total_urls + 0
          rw [hcf.2.2.1]
          omega
        · show (clear_cache st).duplicates + (clear_cache st).unique_urls +
            countBad [] = st.duplicates + st.unique_urls + 0
          rw [hcf.2.2.2.1, hcf.2.2.2.2.1]
          rfl
        · intro _ _
          show (clear_cache st).seen_urls.length ≤ st.max_cache_size
          rw [hcf.2.2.2.2.2.2]
          omega
      | batch reqs =>
        have hb := add_batch_facts hashFn reqs st hInv
        exact ⟨hb.1, hb.2.1, hb.2.2.1, hb.2.2.2.1, hb.2.2.2.2.1,
          hb.2.2.2.2.2⟩
    have hrec := ih (runOp hashFn st op).1 hstep.1
    have hout : runOps hashFn st (op :: rest) =
        ((runOps hashFn (runOp hashFn st op).1 rest).1,
         (runOp hashFn st op).2 ++
           (runOps hashFn (runOp hashFn st op).1 rest).2) := rfl
    rw [hout]
    refine ⟨hrec.1, ?_, ?_, ?_, ?_, ?_⟩
    · rw [hrec.2.1, hstep.2.1]
    · rw [hrec.2.2.1, hstep.2.2.1]
      show st.total_urls + opChecks op + numChecks rest =
        st.total_urls + numChecks (op :: rest)
      unfold numChecks
      simp only [List.map_cons, List.sum_cons]
      omega
    · show (runOps hashFn (runOp hashFn st op).1 rest).1.duplicates +
          (runOps hashFn (runOp hashFn st op).1 rest).1.unique_urls +
          countBad ((runOp hashFn st op).2 ++
            (runOps hashFn (runOp hashFn st op).1 rest).2) =
        st.duplicates + st.unique_urls + numChecks (op :: rest)
      unfold countBad
      rw [List.countP_append]
      have h1 := hstep.2.2.2.1
      have h2 := hrec.2.2.2.1
      unfold countBad at h1 h2
      have hnum : numChecks (op :: rest) = opChecks op + numChecks rest := by
        unfold numChecks
        simp only [List.map_cons, List.sum_cons]
      omega
    · intro hbnone
      exact hrec.2.2.2.2.1 (hstep.2.2.2.2.1 hbnone)
    · intro hbnone hl
      have h1 := hstep.2.2.2.2.2 hbnone hl
      rw [← hstep.2.1] at h1
      have := hrec.2.2.2.2.2 (hstep.2.2.2.2.1 hbnone) h1
      rw [hstep.2.1] at this
      exact this

theorem initState_inv (max_cache_size : Nat) (use_bloom : Bool) :
    Inv (initState max_cache_size use_bloom) :=
  ⟨List.nodup_nil, List.nodup_nil, fun _ => Iff.rfl, fun kv hkv => by
    simp [initState] at hkv⟩

/-- C9: after any sequence of public operations from construction (checks
with arbitrary per-call filter/fault behaviour, batches, cache clears, any
hash function, any filter configuration), a hash is in `seen_urls` iff it is
a key of `url_frequency`, and every stored frequency is positive. -/
theorem C9_cache_frequency_coherent (hashFn : Str → Str)
    (max_cache_size : Nat) (use_bloom : Bool) (ops : List DedupOp) :
    (∀ k,
      k ∈ (runOps hashFn (initState max_cache_size use_bloom) ops).1.seen_urls
      ↔ k ∈ (runOps hashFn (initState max_cache_size use_bloom)
          ops).1.url_frequency.map Prod.fst) ∧
    (∀ kv ∈ (runOps hashFn (initState max_cache_size use_bloom)
        ops).1.url_frequency, 0 < kv.2) := by
  have h := (runOps_facts hashFn ops (initState max_cache_size use_bloom)
    (initState_inv _ _)).1
  exact ⟨h.2.2.1, h.2.2.2⟩

/-- C10: every `is_duplicate` call increments `total_urls` by exactly one
(first conjunct, over arbitrary states); and over any operation sequence
from construction, `duplicates + unique_urls ≤ total_urls`, with strict
inequality exactly when some call returned a malformed-input or
internal-error result (second conjunct). -/
theorem C10_stats_accounting :
    (∀ (hashFn : Str → Str) (ctx : CallCtx) (st : DedupState) (url : Str),
      (is_duplicate hashFn ctx st url).2.total_urls = st.total_urls + 1) ∧
    (∀ (hashFn : Str → Str) (max_cache_size : Nat) (use_bloom : Bool)
        (ops : List DedupOp),
      (runOps hashFn (initState max_cache_size use_bloom) ops).1.duplicates +
          (runOps hashFn (initState max_cache_size use_bloom)
            ops).1.unique_urls ≤
        (runOps hashFn (initState max_cache_size use_bloom) ops).1.total_urls
      ∧
      ((runOps hashFn (initState max_cache_size use_bloom) ops).1.duplicates +
          (runOps hashFn (initState max_cache_size use_bloom)
            ops).1.unique_urls <
        (runOps hashFn (initState max_cache_size use_bloom) ops).1.total_urls
        ↔ ∃ r ∈ (runOps hashFn (initState max_cache_size use_bloom) ops).2,
            badResult r = true)) := by
  refine ⟨is_duplicate_total, ?_⟩
  intro hashFn max_cache_size use_bloom ops
  have h := runOps_facts hashFn ops (initState max_cache_size use_bloom)
    (initState_inv _ _)
  have htot := h.2.2.1
  have hsum := h.2.2.2.1
  have h0t : (initState max_cache_size use_bloom).total_urls = 0 := rfl
  have h0d : (initState max_cache_size use_bloom).duplicates = 0 := rfl
  have h0u : (initState max_cache_size use_bloom).unique_urls = 0 := rfl
  rw [h0t] at htot
  rw [h0d, h0u] at hsum
  have hpos : (0 < countBad (runOps hashFn
      (initState max_cache_size use_bloom) ops).2) ↔
      ∃ r ∈ (runOps hashFn (initState max_cache_size use_bloom) ops).2,
        badResult r = true := by
    unfold countBad
    exact List.countP_pos_iff
  constructor
  · omega
  · rw [← hpos]
    omega

/-- C1 (amended): with the probabilistic filter *disabled*, the membership
cache never exceeds `max_cache_size` keys — neither along any operation
sequence from construction nor after one further `is_duplicate` call — and
when that further call performs an eviction (the eviction counter grows) the
cache is left with exactly `⌊max_cache_size · 0.75⌋` keys — in particular at
least that many, as the claim's lower bound states.  (The original claim also asserted the bound for the default
configuration with the filter enabled; `C1_counterexample` refutes that: the
filter's fast path inserts without ever calling `_evict_cache`.) -/
theorem C1_cache_bound_filter_disabled (hashFn : Str → Str)
    (max_cache_size : Nat) (ops : List DedupOp) (url : Str) (ctx : CallCtx) :
    (runOps hashFn (initState max_cache_size false) ops).1.seen_urls.length ≤
      max_cache_size ∧
    (is_duplicate hashFn ctx
      (runOps hashFn (initState max_cache_size false) ops).1
      url).2.seen_urls.length ≤ max_cache_size ∧
    ((runOps hashFn (initState max_cache_size false) ops).1.cache_evictions <
        (is_duplicate hashFn ctx
          (runOps hashFn (initState max_cache_size false) ops).1
          url).2.cache_evictions →
      (is_duplicate hashFn ctx
        (runOps hashFn (initState max_cache_size false) ops).1
        url).2.seen_urls.length = max_cache_size * 3 / 4) := by
  have h := runOps_facts hashFn ops (initState max_cache_size false)
    (initState_inv _ _)
  have hmax := h.2.1
  have hbn : (runOps hashFn (initState max_cache_size false) ops).1.bloom =
      none := h.2.2.2.2.1 rfl
  have hlen : (runOps hashFn (initState max_cache_size false)
      ops).1.seen_urls.length ≤ max_cache_size :=
    h.2.2.2.2.2 rfl (Nat.zero_le _)
  have hc := is_duplicate_spec hashFn ctx _ url h.1
  refine ⟨hlen, ?_, ?_⟩
  · have := hc.2.2.2.2.1 hbn (by rw [hmax]; exact hlen)
    rw [hmax] at this
    exact this
  · intro he
    have := hc.2.2.2.2.2 hbn he
    rw [hmax] at this
    exact this

/-- Witness for C1 (amended) at a concrete eviction: `max_cache_size = 2`,
filter disabled, one URL already cached; checking a second distinct URL
inserts, triggers eviction (`2 ≥ 2`), and leaves `⌊2 · 0.75⌋ = 1` key. -/
theorem C1_cache_bound_witness :
    (is_duplicate (fun s => s) (noFaults false)
      (runOps (fun s => s) (initState 2 false)
        [.check (chars "https://a.com/1") (noFaults false)]).1
      (chars "https://a.com/2")).2.seen_urls.length = 2 * 3 / 4 :=
  (C1_cache_bound_filter_disabled (fun s => s) 2
    [.check (chars "https://a.com/1") (noFaults false)]
    (chars "https://a.com/2") (noFaults false)).2.2 (by decide)

/-- Counterexample to C1 as stated: under the *default* configuration (the
probabilistic filter enabled), the fast path of `is_duplicate` inserts into
the cache and returns *without* calling `_evict_cache` (deduplication.py
lines 129–139), so after two distinct fresh URLs a deduplicator constructed
with `max_cache_size = 1` holds 2 > 1 keys.  The identity function stands in
for the mmh3 digest: any hash separating the two normalized URLs — as a
128-bit digest does — produces this run. -/
theorem C1_counterexample :
    (runOps (fun s => s) (initState 1 true)
      [.check (chars "https://a.com/1") (noFaults false),
       .check (chars "https://a.com/2") (noFaults false)]).1.max_cache_size
      = 1 ∧
    (runOps (fun s => s) (initState 1 true)
      [.check (chars "https://a.com/1") (noFaults false),
       .check (chars "https://a.com/2") (noFaults false)]).1.seen_urls.length
      = 2 := by
  constructor
  · rfl
  · decide

/-! ## Fail-safe error handling (claim C5) -/

theorem append_error_ne_invalid (msg : Str) :
    chars "Error: " ++ msg ≠ chars "Invalid URL format" := by
  intro h
  have h' : 'E' :: (chars "rror: " ++ msg) = 'I' :: chars "nvalid URL format" := h
  injection h' with h1 _
  exact absurd h1 (by decide)

theorem append_error_ne_exact (msg : Str) :
    chars "Error: " ++ msg ≠ chars "Exact duplicate" := by
  intro h
  have h' : 'E' :: 'r' :: (chars "ror: " ++ msg) =
      'E' :: 'x' :: chars "act duplicate" := h
  injection h' with _ h2
  injection h2 with h3 _
  exact absurd h3 (by decide)

theorem exactPath_reason (st : DedupState) (h nu : Str) :
    (exactPath st h nu).1.reason = none ∨
    (exactPath st h nu).1.reason = some (chars "Exact duplicate") := by
  unfold exactPath
  split
  · right; rfl
  · left; rfl

theorem isDupBody_reason (hashFn : Str → Str) (ctx : CallCtx)
    (st : DedupState) (url : Str) (r : DeduplicationResult) (s' : DedupState)
    (heq : isDupBody hashFn ctx st url = .ok (r, s')) :
    r.reason = none ∨ r.reason = some (chars "Invalid URL format") ∨
    r.reason = some (chars "Exact duplicate") := by
  unfold isDupBody at heq
  cases hn : normalize url with
  | none =>
    rw [hn] at heq
    dsimp only at heq
    simp only [Except.ok.injEq, Prod.mk.injEq] at heq
    obtain ⟨rfl, rfl⟩ := heq
    right; left; rfl
  | some nu0 =>
    rw [hn] at heq
    dsimp only at heq
    by_cases h0 : nu0 = []
    · rw [if_pos h0] at heq
      simp only [Except.ok.injEq, Prod.mk.injEq] at heq
      obtain ⟨rfl, rfl⟩ := heq
      right; left; rfl
    · rw [if_neg h0] at heq
      cases hq : normalize_query_parameters nu0 with
      | error e => rw [hq] at heq; dsimp only at heq; cases heq
      | ok nu =>
        rw [hq] at heq
        dsimp only at heq
        cases hhf : ctx.hashFault with
        | some e => rw [hhf] at heq; dsimp only at heq; cases heq
        | none =>
          rw [hhf] at heq
          dsimp only at heq
          cases hbl : st.bloom with
          | some filt =>
            rw [hbl] at heq
            dsimp only at heq
            cases hqf : ctx.queryFault with
            | some e => rw [hqf] at heq; dsimp only at heq; cases heq
            | none =>
              rw [hqf] at heq
              dsimp only at heq
              by_cases hhas : bloomHas filt nu ctx.fpHit
              · rw [if_pos hhas] at heq
                simp only [Except.ok.injEq] at heq
                have := exactPath_reason st (hashFn nu) nu
                rw [heq] at this
                rcases this with h' | h'
                · exact Or.inl h'
                · exact Or.inr (Or.inr h')
              · rw [if_neg hhas] at heq
                cases haf : ctx.addFault with
                | some e => rw [haf] at heq; dsimp only at heq; cases heq
                | none =>
                  rw [haf] at heq
                  dsimp only at heq
                  simp only [Except.ok.injEq, Prod.mk.injEq] at heq
                  obtain ⟨rfl, rfl⟩ := heq
                  left; rfl
          | none =>
            rw [hbl] at heq
            dsimp only at heq
            simp only [Except.ok.injEq] at heq
            have := exactPath_reason st (hashFn nu) nu
            rw [heq] at this
            rcases this with h' | h'
            · exact Or.inl h'
            · exact Or.inr (Or.inr h')

/-- C5: `is_duplicate` is a total function — every internal failure (the
genuinely reachable re-parse failure of the defensive second normalization
pass, as well as hash-library and filter-library faults, modelled by the
per-call fault oracles in `CallCtx`) is caught at the outermost boundary.
Whenever the fail-safe error result (reason `"Error: …"`) is returned, it
has `is_duplicate = true`, an empty `hash_value`, `normalized_url` equal to
the raw input, and the membership cache, the frequency table and the
probabilistic filter are left exactly in their pre-call state (only the
`total_urls` counter has moved). -/
theorem C5_failsafe_error_preserves_state (hashFn : Str → Str)
    (ctx : CallCtx) (st : DedupState) (url : Str)
    (herr : ∃ msg, (is_duplicate hashFn ctx st url).1.reason =
      some (chars "Error: " ++ msg)) :
    (is_duplicate hashFn ctx st url).1.is_duplicate = true ∧
    (is_duplicate hashFn ctx st url).1.hash_value = [] ∧
    (is_duplicate hashFn ctx st url).1.normalized_url = url ∧
    (is_duplicate hashFn ctx st url).2.seen_urls = st.seen_urls ∧
    (is_duplicate hashFn ctx st url).2.url_frequency = st.url_frequency ∧
    (is_duplicate hashFn ctx st url).2.bloom = st.bloom ∧
    (is_duplicate hashFn ctx st url).2.total_urls = st.total_urls + 1 := by
  obtain ⟨msg, hmsg⟩ := herr
  cases hb : isDupBody hashFn ctx { st with total_urls := st.total_urls + 1 }
      url with
  | error e =>
    rw [is_duplicate_eq_error hb]
    exact ⟨rfl, rfl, rfl, rfl, rfl, rfl, rfl⟩
  | ok out =>
    obtain ⟨r, s'⟩ := out
    rw [is_duplicate_eq_ok hb] at hmsg
    have hr := isDupBody_reason hashFn ctx _ url r s' hb
    exfalso
    rcases hr with h' | h' | h'
    · rw [show (r, s').1.reason = r.reason from rfl, h'] at hmsg
      cases hmsg
    · rw [show (r, s').1.reason = r.reason from rfl, h'] at hmsg
      simp only [Option.some.injEq] at hmsg
      exact append_error_ne_invalid msg hmsg.symm
    · rw [show (r, s').1.reason = r.reason from rfl, h'] at hmsg
      simp only [Option.some.injEq] at hmsg
      exact append_error_ne_exact msg hmsg.symm

/-- Witness for C5 at a genuinely failing input: `normalize` turns
`http:////x[` into `http://x[`, whose re-parse inside
`_normalize_query_parameters` raises `ValueError("Invalid IPv6 URL")`;
`is_duplicate` converts this into the fail-safe duplicate result and leaves
the (fresh) cache, frequency table and filter untouched. -/
theorem C5_failsafe_witness :
    (is_duplicate (fun s => s) (noFaults false) (initState 5 true)
      (chars "http:////x[")).1.is_duplicate = true ∧
    (is_duplicate (fun s => s) (noFaults false) (initState 5 true)
      (chars "http:////x[")).2.seen_urls = [] := by
  have h := C5_failsafe_error_preserves_state (fun s => s) (noFaults false)
    (initState 5 true) (chars "http:////x[")
    ⟨chars "Invalid IPv6 URL", by decide⟩
  exact ⟨h.1, h.2.2.2.1⟩

/-! ## Validator (claim C8) -/

/-- C8: the validator applies its checks in the declared order and
short-circuits at the first failure.  First conjunct: `ftp://example.com`
fails the scheme check (before the domain-extraction library is even
consulted — the result holds for every `tldx`).  Second conjunct: any URL
longer than 2000 characters that passes the earlier checks (parse, scheme,
domain blocklist, extension blocklist) is rejected as "URL too long".
Third conjunct: any URL whose lower-cased form ends in ".pdf" and passes the
earlier checks is rejected as "Blocked file extension" (the length check
never runs). -/
theorem C8_validator_short_circuit :
    (∀ tldx : Str → Str × Str,
      is_valid_url tldx (chars "ftp://example.com") =
        ⟨false, chars "Invalid scheme"⟩) ∧
    (∀ (tldx : Str → Str × Str) (url : Str) (p : UrlParseResult),
      urlparseE url = .ok p → p.scheme ≠ [] → p.netloc ≠ [] →
      (p.scheme = chars "http" ∨ p.scheme = chars "https") →
      ((tldx url).1 ++ '.' :: (tldx url).2) ∉ blocked_domains →
      (∀ e ∈ skip_extensions, ¬ e.isSuffixOf (lower url)) →
      url.length > 2000 →
      is_valid_url tldx url = ⟨false, chars "URL too long"⟩) ∧
    (∀ (tldx : Str → Str × Str) (url : Str) (p : UrlParseResult),
      urlparseE url = .ok p → p.scheme ≠ [] → p.netloc ≠ [] →
      (p.scheme = chars "http" ∨ p.scheme = chars "https") →
      ((tldx url).1 ++ '.' :: (tldx url).2) ∉ blocked_domains →
      (chars ".pdf").isSuffixOf (lower url) →
      is_valid_url tldx url = ⟨false, chars "Blocked file extension"⟩) := by
  refine ⟨?_, ?_, ?_⟩
  · intro tldx
    unfold is_valid_url
    rw [show urlparseE (chars "ftp://example.com") =
      .ok ⟨chars "ftp", chars "example.com", [], [], [], []⟩ from by decide]
    dsimp only
    rw [if_neg (by decide), if_pos (by decide)]
  · intro tldx url p hp hs hn hsch hdom hext hlen
    unfold is_valid_url
    rw [hp]
    dsimp only
    rw [if_neg (by rintro (h | h); exact hs h; exact hn h),
      if_neg (not_not_intro hsch), if_neg hdom,
      if_neg (by
        intro hany
        obtain ⟨e, he, hse⟩ := List.any_eq_true.mp hany
        exact hext e he hse),
      if_pos hlen]
  · intro tldx url p hp hs hn hsch hdom hpdf
    unfold is_valid_url
    rw [hp]
    dsimp only
    rw [if_neg (by rintro (h | h); exact hs h; exact hn h),
      if_neg (not_not_intro hsch), if_neg hdom,
      if_pos (List.any_eq_true.mpr ⟨chars ".pdf", by decide, hpdf⟩)]


/-! ## Character-level lemmas -/

theorem toNat_ofNat_valid (n : Nat) (h : n < 55296) :
    (Char.ofNat n).toNat = n := by
  unfold Char.ofNat
  rw [dif_pos (Or.inl h : n.isValidChar)]
  rfl

theorem pyLowerChar_toNat (c : Char) :
    (65 ≤ c.toNat ∧ c.toNat ≤ 90 ∧ (pyLowerChar c).toNat = c.toNat + 32) ∨
    (¬(65 ≤ c.toNat ∧ c.toNat ≤ 90) ∧ pyLowerChar c = c) := by
  unfold pyLowerChar
  by_cases h : 65 ≤ c.toNat ∧ c.toNat ≤ 90
  · left
    refine ⟨h.1, h.2, ?_⟩
    rw [if_pos h]
    exact toNat_ofNat_valid _ (by omega)
  · right
    rw [if_neg h]
    exact ⟨h, rfl⟩

theorem pyLowerChar_fix (c : Char) :
    pyLowerChar (pyLowerChar c) = pyLowerChar c := by
  rcases pyLowerChar_toNat c with ⟨_, _, h3⟩ | ⟨_, he⟩
  · show (if 65 ≤ (pyLowerChar c).toNat ∧ (pyLowerChar c).toNat ≤ 90 then
        Char.ofNat ((pyLowerChar c).toNat + 32) else pyLowerChar c) =
      pyLowerChar c
    rw [if_neg (by omega)]
  · rw [he]
    exact he

theorem lower_fix (s : Str) : lower (lower s) = lower s := by
  unfold lower
  rw [List.map_map]
  apply List.map_congr_left
  intro a _
  exact pyLowerChar_fix a

/-- A character that ASCII lower-casing can neither produce from a different
character nor change: not an ASCII letter of either case. -/
def neutralChar (t : Char) : Prop :=
  ¬(65 ≤ t.toNat ∧ t.toNat ≤ 90) ∧ ¬(97 ≤ t.toNat ∧ t.toNat ≤ 122)

theorem pyLowerChar_eq_neutral {c t : Char} (ht : neutralChar t) :
    pyLowerChar c = t ↔ c = t := by
  rcases pyLowerChar_toNat c with ⟨h1, h2, h3⟩ | ⟨_, he⟩
  · constructor
    · intro he2
      exfalso
      have : t.toNat = c.toNat + 32 := by rw [← he2]; exact h3
      exact ht.2 (by omega)
    · intro he2
      exfalso
      subst he2
      exact ht.1 ⟨h1, h2⟩
  · rw [he]

theorem pyLowerChar_neutral_fix {t : Char} (ht : neutralChar t) :
    pyLowerChar t = t := by
  unfold pyLowerChar
  rw [if_neg ht.1]

theorem mem_lower_neutral {t : Char} {s : Str} (ht : neutralChar t) :
    t ∈ lower s ↔ t ∈ s := by
  unfold lower
  constructor
  · intro h
    obtain ⟨c, hc, hct⟩ := List.mem_map.mp h
    exact ((pyLowerChar_eq_neutral ht).mp hct) ▸ hc
  · intro h
    exact List.mem_map.mpr ⟨t, h, pyLowerChar_neutral_fix ht⟩

/-! ## Membership lemmas for `stripEnd` and `pyReplace` -/

theorem stripEnd_subset {suf s : Str} : ∀ c ∈ stripEnd suf s, c ∈ s := by
  intro c hc
  unfold stripEnd at hc
  split at hc
  · exact List.take_subset _ _ hc
  · exact hc

theorem mem_stripEnd_iff {suf s : Str} {c : Char} (hc : c ∉ suf) :
    c ∈ stripEnd suf s ↔ c ∈ s := by
  unfold stripEnd
  split
  case isTrue h =>
    obtain ⟨pre, hpre⟩ := List.isSuffixOf_iff_suffix.mp h
    rw [← hpre, List.length_append, Nat.add_sub_cancel, List.take_left,
      List.mem_append]
    constructor
    · exact Or.inl
    · rintro (h' | h')
      · exact h'
      · exact absurd h' hc
  case isFalse _ => exact Iff.rfl

theorem replaceAux_subset (old new : Str) :
    ∀ (fuel : Nat) (s : Str) (c : Char), c ∈ replaceAux old new fuel s →
      c ∈ s ∨ c ∈ new := by
  intro fuel
  induction fuel with
  | zero => exact fun s c hc => Or.inl hc
  | succ fuel ih =>
    intro s c hc
    cases s with
    | nil => simp [replaceAux] at hc
    | cons a rest =>
      unfold replaceAux at hc
      split at hc
      · rcases List.mem_append.mp hc with h' | h'
        · exact Or.inr h'
        · rcases ih _ c h' with h'' | h''
          · exact Or.inl (List.drop_subset _ _ h'')
          · exact Or.inr h''
      · rcases List.mem_cons.mp hc with rfl | h'
        · exact Or.inl (List.mem_cons_self _ _)
        · rcases ih _ c h' with h'' | h''
          · exact Or.inl (List.mem_cons_of_mem _ h'')
          · exact Or.inr h''

theorem mem_replaceAux_iff {old new : Str} {c : Char} (hcold : c ∉ old)
    (hcnew : c ∉ new) :
    ∀ (fuel : Nat) (s : Str), c ∈ replaceAux old new fuel s ↔ c ∈ s := by
  intro fuel
  induction fuel with
  | zero => exact fun s => Iff.rfl
  | succ fuel ih =>
    intro s
    cases s with
    | nil => simp [replaceAux]
    | cons a rest =>
      unfold replaceAux
      split
      case isTrue h =>
        obtain ⟨t, ht⟩ := List.isPrefixOf_iff_prefix.mp h
        rw [List.mem_append, ih, ← ht, List.drop_left, List.mem_append]
        constructor
        · rintro (h' | h')
          · exact absurd h' hcnew
          · exact Or.inr h'
        · rintro (h' | h')
          · exact absurd h' hcold
          · exact Or.inr h'
      case isFalse _ =>
        rw [List.mem_cons, ih, List.mem_cons]

theorem mem_pyReplace_iff {old new s : Str} {c : Char} (hcold : c ∉ old)
    (hcnew : c ∉ new) : c ∈ pyReplace s old new ↔ c ∈ s := by
  unfold pyReplace
  split
  · exact Iff.rfl
  · exact mem_replaceAux_iff hcold hcnew _ s

theorem pyReplace_subset {old new s : Str} {c : Char}
    (h : c ∈ pyReplace s old new) : c ∈ s ∨ c ∈ new := by
  unfold pyReplace at h
  split at h
  · exact Or.inl h
  · exact replaceAux_subset old new _ s c h

/-! ## Character facts about `hostTransform` and `pathFix` -/

theorem hostTransform_chars {n : Str} :
    ∀ c ∈ hostTransform n, c ∈ lower n ∨ c = '.' := by
  intro c hc
  unfold hostTransform at hc
  simp only [domain_variations, List.foldl_cons, List.foldl_nil] at hc
  rcases pyReplace_subset hc with hc | hc
  swap
  · right
    simpa [chars] using hc
  rcases pyReplace_subset hc with hc | hc
  swap
  · right
    simpa [chars] using hc
  rcases pyReplace_subset hc with hc | hc
  swap
  · simp [chars] at hc
  exact Or.inl (stripEnd_subset _ (stripEnd_subset _ hc))

theorem hostTransform_lower_fix (n : Str) :
    lower (hostTransform n) = hostTransform n := by
  have hpt : ∀ c ∈ hostTransform n, pyLowerChar c = c := by
    intro c hc
    rcases hostTransform_chars c hc with hc' | rfl
    · obtain ⟨c0, _, rfl⟩ := List.mem_map.mp hc'
      exact pyLowerChar_fix c0
    · decide
  unfold lower
  conv_rhs => rw [← List.map_id (hostTransform n)]
  exact List.map_congr_left hpt

/-! ## Claim C3: `normalize` and parse failure -/

/-- C3 counterexample: `"example.com"` parses with an empty scheme and an
empty netloc, yet `normalize` still returns a string — the code never checks
that a scheme or host is present; its `try` block only swallows parse
exceptions. -/
theorem C3_counterexample :
    urlparseE (chars "example.com") =
      .ok ⟨[], [], chars "example.com", [], [], []⟩ ∧
    normalize (chars "example.com") = some (chars "example.com") :=
  ⟨by decide, by decide⟩

/-- C3 (amended): `normalize` returns `none` exactly when the underlying
`urlparse` raises; it never checks whether the parse produced a scheme or a
host, and failure is reported only through the `none` result. -/
theorem C3_none_iff_parse_error (url : Str) :
    normalize url = none ↔ ∃ e, urlparseE url = .error e := by
  unfold normalize
  cases h : urlparseE url with
  | error e => exact ⟨fun _ => ⟨e, rfl⟩, fun _ => rfl⟩
  | ok p =>
    exact ⟨fun hc => Option.noConfusion hc,
      fun hc => hc.elim fun e he => Except.noConfusion he⟩

/-! ## Claim C2: the repeat property of `is_duplicate` -/

theorem setAdd_nil (x : Str) : setAdd [] x = [x] := by
  simp [setAdd]

theorem bloomHas_nil (item : Str) (fp : Bool) : bloomHas [] item fp = false := by
  simp [bloomHas]

theorem bloomHas_of_mem {filt : List Str} {item : Str} (fp : Bool)
    (hm : item ∈ filt) : bloomHas filt item fp = true := by
  simp [bloomHas, hm]

theorem bloomAdd_nil (item : Str) : bloomAdd [] item = [item] := by
  simp [bloomAdd]

/-- `isDupBody` under a fault-free context once both normalizations have
succeeded: only the bloom-filter branching remains. -/
theorem isDupBody_noFaults {hashFn : Str → Str} {fp : Bool} {st : DedupState}
    {u nu0 nu : Str} (hn : normalize u = some nu0) (hne : nu0 ≠ [])
    (hq : normalize_query_parameters nu0 = .ok nu) :
    isDupBody hashFn (noFaults fp) st u =
      match st.bloom with
      | some filt =>
        if bloomHas filt nu fp then .ok (exactPath st (hashFn nu) nu)
        else .ok (⟨false, hashFn nu, nu, none⟩,
          { insertNew st (hashFn nu) with bloom := some (bloomAdd filt nu) })
      | none => .ok (exactPath st (hashFn nu) nu) := by
  unfold isDupBody
  rw [hn]
  dsimp only
  rw [if_neg hne, hq]
  dsimp only [noFaults]

theorem isDupBody_noFaults_none {hashFn : Str → Str} {fp : Bool}
    {st : DedupState} {u nu0 nu : Str} (hn : normalize u = some nu0)
    (hne : nu0 ≠ []) (hq : normalize_query_parameters nu0 = .ok nu)
    (hbl : st.bloom = none) :
    isDupBody hashFn (noFaults fp) st u = .ok (exactPath st (hashFn nu) nu) := by
  rw [isDupBody_noFaults hn hne hq, hbl]

theorem isDupBody_noFaults_bloomNil {hashFn : Str → Str} {fp : Bool}
    {st : DedupState} {u nu0 nu : Str} (hn : normalize u = some nu0)
    (hne : nu0 ≠ []) (hq : normalize_query_parameters nu0 = .ok nu)
    (hbl : st.bloom = some []) :
    isDupBody hashFn (noFaults fp) st u =
      .ok (⟨false, hashFn nu, nu, none⟩,
        { insertNew st (hashFn nu) with bloom := some [nu] }) := by
  rw [isDupBody_noFaults hn hne hq, hbl]
  dsimp only
  rw [bloomHas_nil, if_neg (by decide), bloomAdd_nil]

theorem isDupBody_noFaults_bloomMem {hashFn : Str → Str} {fp : Bool}
    {st : DedupState} {u nu0 nu : Str} {filt : List Str}
    (hn : normalize u = some nu0) (hne : nu0 ≠ [])
    (hq : normalize_query_parameters nu0 = .ok nu)
    (hbl : st.bloom = some filt) (hm : nu ∈ filt) :
    isDupBody hashFn (noFaults fp) st u = .ok (exactPath st (hashFn nu) nu) := by
  rw [isDupBody_noFaults hn hne hq, hbl]
  dsimp only
  rw [bloomHas_of_mem fp hm, if_pos rfl]

theorem exactPath_of_mem {st : DedupState} {h nu : Str}
    (hm : h ∈ st.seen_urls) :
    exactPath st h nu =
      (⟨true, h, nu, some (chars "Exact duplicate")⟩,
       { st with
           url_frequency :=
             dictSet st.url_frequency h (dictGet st.url_frequency h 0 + 1),
           duplicates := st.duplicates + 1 }) := by
  unfold exactPath
  rw [if_pos hm]

theorem exactPath_of_not_mem {st : DedupState} {h nu : Str}
    (hm : h ∉ st.seen_urls) :
    exactPath st h nu = (⟨false, h, nu, none⟩, evict_cache (insertNew st h)) := by
  unfold exactPath
  rw [if_neg hm]

/-- A fault-free call on a state that already holds the hash in its exact
cache (and, when a filter is present, the normalized URL in the filter)
reports an exact duplicate. -/
theorem is_duplicate_second (hashFn : Str → Str) (fp : Bool) (st : DedupState)
    (u nu0 nu : Str) (hn : normalize u = some nu0) (hne : nu0 ≠ [])
    (hq : normalize_query_parameters nu0 = .ok nu)
    (hseen : hashFn nu ∈ st.seen_urls)
    (hbl : st.bloom = none ∨ ∃ filt, st.bloom = some filt ∧ nu ∈ filt) :
    (is_duplicate hashFn (noFaults fp) st u).1 =
      ⟨true, hashFn nu, nu, some (chars "Exact duplicate")⟩ := by
  have hb : isDupBody hashFn (noFaults fp)
      { st with total_urls := st.total_urls + 1 } u =
      .ok (exactPath { st with total_urls := st.total_urls + 1 }
        (hashFn nu) nu) := by
    rcases hbl with hbl | ⟨filt, hbl, hm⟩
    · exact isDupBody_noFaults_none hn hne hq hbl
    · exact isDupBody_noFaults_bloomMem hn hne hq hbl hm
  rw [is_duplicate_eq_ok hb,
    exactPath_of_mem (show hashFn nu ∈
      ({ st with total_urls := st.total_urls + 1 } : DedupState).seen_urls
      from hseen)]

/-- A fault-free first call without a filter on a state whose exact cache
misses: insert, then run the eviction check. -/
theorem is_duplicate_first_noBloom (hashFn : Str → Str) (fp : Bool)
    (st : DedupState) (u nu0 nu : Str) (hn : normalize u = some nu0)
    (hne : nu0 ≠ []) (hq : normalize_query_parameters nu0 = .ok nu)
    (hbl : st.bloom = none) (hseen : hashFn nu ∉ st.seen_urls) :
    is_duplicate hashFn (noFaults fp) st u =
      (⟨false, hashFn nu, nu, none⟩,
       evict_cache (insertNew { st with total_urls := st.total_urls + 1 }
         (hashFn nu))) := by
  have hb := @isDupBody_noFaults_none hashFn fp
    { st with total_urls := st.total_urls + 1 } u nu0 nu hn hne hq hbl
  rw [is_duplicate_eq_ok hb]
  exact exactPath_of_not_mem hseen

/-- A fault-free first call with an empty filter takes the fast path: insert
into cache and filter, with no eviction check. -/
theorem is_duplicate_first_bloomNil (hashFn : Str → Str) (fp : Bool)
    (st : DedupState) (u nu0 nu : Str) (hn : normalize u = some nu0)
    (hne : nu0 ≠ []) (hq : normalize_query_parameters nu0 = .ok nu)
    (hbl : st.bloom = some []) :
    is_duplicate hashFn (noFaults fp) st u =
      (⟨false, hashFn nu, nu, none⟩,
       { insertNew { st with total_urls := st.total_urls + 1 } (hashFn nu)
           with bloom := some [nu] }) :=
  is_duplicate_eq_ok (isDupBody_noFaults_bloomNil hn hne hq hbl)

/-- C2 counterexample: with the probabilistic filter disabled and
`max_cache_size = 1`, the first insertion immediately triggers an eviction
that retains `⌊1 · 0.75⌋ = 0` keys, so submitting the same URL twice from a
fresh deduplicator reports *not a duplicate* both times — the second call
never sees "Exact duplicate". -/
theorem C2_counterexample :
    (is_duplicate (fun s => s) (noFaults false) (initState 1 false)
      (chars "https://a.com/")).1.is_duplicate = false ∧
    (is_duplicate (fun s => s) (noFaults false)
      (is_duplicate (fun s => s) (noFaults false) (initState 1 false)
        (chars "https://a.com/")).2
      (chars "https://a.com/")).1.is_duplicate = false :=
  ⟨by decide, by decide⟩

/-- C2 (amended): from a fresh deduplicator, submitting the same URL twice
with fault-free calls yields not-a-duplicate and then an "Exact duplicate"
result, provided the URL normalizes to a nonempty string whose
query-parameter re-normalization succeeds, and provided either the
probabilistic filter is enabled (its fast path skips the eviction check) or
`max_cache_size ≥ 2` (with the filter disabled and `max_cache_size ≤ 1` the
first insertion evicts down to `⌊max · 0.75⌋ = 0` keys and the property
fails). -/
theorem C2_repeat_property (hashFn : Str → Str) (u nu0 nu : Str) (m : Nat)
    (useBloom fp1 fp2 : Bool)
    (hok : useBloom = true ∨ 2 ≤ m)
    (hn : normalize u = some nu0) (hne : nu0 ≠ [])
    (hq : normalize_query_parameters nu0 = .ok nu) :
    (is_duplicate hashFn (noFaults fp1) (initState m useBloom) u).1.is_duplicate
      = false ∧
    (is_duplicate hashFn (noFaults fp2)
        (is_duplicate hashFn (noFaults fp1) (initState m useBloom) u).2
        u).1 =
      ⟨true, hashFn nu, nu, some (chars "Exact duplicate")⟩ := by
  cases useBloom with
  | true =>
    rw [is_duplicate_first_bloomNil hashFn fp1 (initState m true) u nu0 nu
      hn hne hq rfl]
    refine ⟨rfl, ?_⟩
    refine is_duplicate_second hashFn fp2 _ u nu0 nu hn hne hq ?_ ?_
    · show hashFn nu ∈ setAdd [] (hashFn nu)
      rw [setAdd_nil]
      exact List.mem_singleton.mpr rfl
    · exact Or.inr ⟨[nu], rfl, List.mem_singleton.mpr rfl⟩
  | false =>
    have hm2 : 2 ≤ m := by
      rcases hok with h | h
      · exact absurd h (by decide)
      · exact h
    rw [is_duplicate_first_noBloom hashFn fp1 (initState m false) u nu0 nu
      hn hne hq rfl (List.not_mem_nil _)]
    refine ⟨rfl, ?_⟩
    rw [evict_cache_of_lt (by
      show (setAdd [] (hashFn nu)).length < m
      rw [setAdd_nil]
      simpa using hm2)]
    refine is_duplicate_second hashFn fp2 _ u nu0 nu hn hne hq ?_ (Or.inl rfl)
    show hashFn nu ∈ setAdd [] (hashFn nu)
    rw [setAdd_nil]
    exact List.mem_singleton.mpr rfl

/-- C2 witness: the amended repeat property at a concrete input
(`max_cache_size = 2`, filter disabled, identity hash). -/
theorem C2_repeat_witness :
    (is_duplicate (fun s => s) (noFaults false) (initState 2 false)
      (chars "https://a.com/")).1.is_duplicate = false ∧
    (is_duplicate (fun s => s) (noFaults false)
        (is_duplicate (fun s => s) (noFaults false) (initState 2 false)
          (chars "https://a.com/")).2
        (chars "https://a.com/")).1 =
      ⟨true, chars "https://a.com/", chars "https://a.com/",
       some (chars "Exact duplicate")⟩ :=
  C2_repeat_property (fun s => s) (chars "https://a.com/")
    (chars "https://a.com/") (chars "https://a.com/") 2 false false false
    (Or.inr (by decide)) (by decide) (by decide) (by decide)

/-! ## Claim C6: query filtering and sorting -/

theorem strLeB_total : ∀ a b : Str, strLeB a b = true ∨ strLeB b a = true := by
  intro a
  induction a with
  | nil => exact fun b => Or.inl rfl
  | cons x xs ih =>
    intro b
    cases b with
    | nil => exact Or.inr rfl
    | cons y ys =>
      by_cases hxy : x < y
      · left
        unfold strLeB
        rw [if_pos hxy]
      · by_cases hyx : y < x
        · right
          unfold strLeB
          rw [if_pos hyx]
        · rcases ih ys with h | h
          · left
            unfold strLeB
            rw [if_neg hxy, if_neg hyx]
            exact h
          · right
            unfold strLeB
            rw [if_neg hyx, if_neg hxy]
            exact h

theorem strLeB_trans : ∀ a b c : Str, strLeB a b = true → strLeB b c = true →
    strLeB a c = true := by
  intro a
  induction a with
  | nil => exact fun _ _ _ _ => rfl
  | cons x xs ih =>
    intro b c hab hbc
    cases b with
    | nil => exact Bool.noConfusion hab
    | cons y ys =>
      cases c with
      | nil => exact Bool.noConfusion hbc
      | cons z zs =>
        unfold strLeB at hab hbc ⊢
        rcases lt_trichotomy x y with h1 | h1 | h1
        · rcases lt_trichotomy y z with h2 | h2 | h2
          · rw [if_pos (lt_trans h1 h2)]
          · rw [if_pos (h2 ▸ h1)]
          · rw [if_neg (lt_asymm h2), if_pos h2] at hbc
            exact Bool.noConfusion hbc
        · subst h1
          rw [if_neg (lt_irrefl x), if_neg (lt_irrefl x)] at hab
          rcases lt_trichotomy x z with h2 | h2 | h2
          · rw [if_pos h2]
          · subst h2
            rw [if_neg (lt_irrefl x), if_neg (lt_irrefl x)] at hbc ⊢
            exact ih ys zs hab hbc
          · rw [if_neg (lt_asymm h2), if_pos h2] at hbc
            exact Bool.noConfusion hbc
        · rw [if_neg (lt_asymm h1), if_pos h1] at hab
          exact Bool.noConfusion hab

/-- C6 counterexample: the parameter `a` of `?a=&b=1` is not in the
blocklist, yet it is dropped — the source calls `parse_qs` with its default
`keep_blank_values=False`, so blank-valued parameters never survive, contrary
to the claim that exactly the blocklisted names are removed. -/
theorem C6_counterexample :
    queryTransform (chars "a=&b=1") ≠ queryTransformSpec (chars "a=&b=1") ∧
    queryTransform (chars "a=&b=1") = chars "b=1" ∧
    normalize (chars "https://e.com/p?a=&b=1") =
      some (chars "https://e.com/p?b=1") :=
  ⟨by decide, by decide, by decide⟩

/-- C6 (amended): among the parameters that `parse_qs` retains (those with a
non-blank value — blank-valued ones are additionally dropped by the default
`keep_blank_values=False`), `normalize`'s query transformation keeps exactly
the ones whose name is outside the nine-element blocklist, sorted
lexicographically by name; and the claim's two concrete equalities hold. -/
theorem C6_query_filter_sort :
    (∀ q : Str, ∃ pairs : List (Str × List Str),
      queryTransform q = urlencode pairs ∧
      List.Perm pairs ((parseQs false q).filter
        (fun kv => decide (kv.1 ∉ remove_params))) ∧
      pairs.Pairwise (fun a b => strLeB a.1 b.1 = true) ∧
      pairs.all (fun kv => decide (kv.1 ∉ remove_params)) = true) ∧
    normalize (chars "https://example.com/p?utm_source=x&a=1") =
      normalize (chars "https://example.com/p?a=1") ∧
    normalize (chars "https://e.com/p?b=2&a=1") =
      normalize (chars "https://e.com/p?a=1&b=2") := by
  refine ⟨?_, by decide, by decide⟩
  intro q
  refine ⟨sortByName ((parseQs false q).filter
    (fun kv => decide (kv.1 ∉ remove_params))), rfl, stableSort_perm _ _,
    stableSort_pairwise (fun a b : Str × List Str => strLeB_total a.1 b.1)
      (fun a b c : Str × List Str => strLeB_trans a.1 b.1 c.1) _, ?_⟩
  rw [List.all_eq_true]
  intro kv hkv
  exact (List.mem_filter.mp ((stableSort_perm _ _).subset hkv)).2

/-! ## The `quote_plus` / `unquote_plus` round trip -/

theorem reduceOption_map_some {α : Type} (l : List α) :
    (l.map some).reduceOption = l := by
  induction l with
  | nil => rfl
  | cons x xs ih => simp [List.reduceOption_cons_of_some, ih]

theorem percentDecodeAux_nil : ∀ fuel : Nat, percentDecodeAux fuel [] = [] := by
  intro fuel
  cases fuel with
  | zero => rfl
  | succ f => rfl

theorem percentDecodeAux_ne_nil :
    ∀ (fuel : Nat) (s : Str), s ≠ [] → percentDecodeAux fuel s ≠ [] := by
  intro fuel s hs
  cases fuel with
  | zero => exact hs
  | succ f =>
    cases s with
    | nil => exact absurd rfl hs
    | cons c rest =>
      simp only [percentDecodeAux]
      by_cases hc : c = '%'
      · rw [if_pos hc]
        cases rest with
        | nil => exact List.cons_ne_nil _ _
        | cons h1 r1 =>
          cases r1 with
          | nil => exact List.cons_ne_nil _ _
          | cons h2 r2 =>
            dsimp only
            split
            · exact List.cons_ne_nil _ _
            · exact List.cons_ne_nil _ _
      · rw [if_neg hc]
        exact List.cons_ne_nil _ _

theorem unquotePlus_ne_nil {s : Str} (hs : s ≠ []) : unquotePlus s ≠ [] := by
  unfold unquotePlus percentDecode
  apply percentDecodeAux_ne_nil
  unfold plusToSpace
  exact fun h => hs (List.map_eq_nil_iff.mp h)

theorem hexUpper_toNat {n : Nat} (h : n < 16) :
    (n < 10 ∧ (hexUpper n).toNat = 48 + n) ∨
    (10 ≤ n ∧ (hexUpper n).toNat = 55 + n) := by
  unfold hexUpper
  by_cases h10 : n < 10
  · left
    rw [if_pos h10]
    exact ⟨h10, toNat_ofNat_valid _ (by omega)⟩
  · right
    rw [if_neg h10]
    exact ⟨by omega, toNat_ofNat_valid _ (by omega)⟩

theorem isHexDigit_hexUpper {n : Nat} (h : n < 16) :
    isHexDigit (hexUpper n) = true := by
  unfold isHexDigit
  rcases hexUpper_toNat h with ⟨h1, h2⟩ | ⟨h1, h2⟩ <;>
    (rw [h2]; simp only [Bool.or_eq_true, Bool.and_eq_true, decide_eq_true_eq];
     omega)

theorem hexVal_hexUpper {n : Nat} (h : n < 16) : hexVal (hexUpper n) = n := by
  unfold hexVal
  rcases hexUpper_toNat h with ⟨h1, h2⟩ | ⟨h1, h2⟩ <;> rw [h2]
  · rw [if_pos (by omega)]
    omega
  · rw [if_neg (by omega), if_neg (by omega)]
    omega

theorem isHexDigit_ne_plus {c : Char} (h : isHexDigit c = true) : c ≠ '+' := by
  rintro rfl
  exact absurd h (by decide)

theorem isHexDigit_ne_percent {c : Char} (h : isHexDigit c = true) :
    c ≠ '%' := by
  rintro rfl
  exact absurd h (by decide)

theorem quotePlusChar_good (d : Char) : ∀ c ∈ quotePlusChar d, goodQ c = true := by
  intro c hc
  unfold quotePlusChar at hc
  by_cases h1 : isAlwaysSafe d = true
  · rw [if_pos h1] at hc
    rw [List.mem_singleton.mp hc]
    simp [goodQ, h1]
  · rw [if_neg h1] at hc
    by_cases h2 : d = ' '
    · rw [if_pos h2] at hc
      rw [List.mem_singleton.mp hc]
      decide
    · rw [if_neg h2] at hc
      by_cases h3 : d.toNat < 256
      · rw [if_pos h3] at hc
        rcases List.mem_cons.mp hc with rfl | hc
        · decide
        rcases List.mem_cons.mp hc with rfl | hc
        · simp [goodQ, isHexDigit_hexUpper (show d.toNat / 16 < 16 by omega)]
        rcases List.mem_cons.mp hc with rfl | hc
        · simp [goodQ, isHexDigit_hexUpper (Nat.mod_lt _ (by omega))]
        · exact absurd hc (List.not_mem_nil c)
      · rw [if_neg h3] at hc
        rw [List.mem_singleton.mp hc]
        have hbig : decide (256 ≤ d.toNat) = true := decide_eq_true (by omega)
        simp [goodQ, hbig]

theorem goodQ_ne {c : Char} (h : goodQ c = true) :
    c ≠ '=' ∧ c ≠ '&' ∧ c ≠ '#' ∧ c ≠ '\t' ∧ c ≠ '\n' ∧ c ≠ '\r' ∧
    c ≠ '?' ∧ c ≠ ';' := by
  refine ⟨?_, ?_, ?_, ?_, ?_, ?_, ?_, ?_⟩ <;>
    (rintro rfl; exact absurd h (by decide))

theorem quotePlus_nil : quotePlus [] = [] := rfl

theorem quotePlus_cons (c : Char) (s : Str) :
    quotePlus (c :: s) = quotePlusChar c ++ quotePlus s := by
  simp [quotePlus]

theorem quotePlusChar_ne_nil (d : Char) : quotePlusChar d ≠ [] := by
  unfold quotePlusChar
  split
  · exact List.cons_ne_nil _ _
  split
  · exact List.cons_ne_nil _ _
  split
  · exact List.cons_ne_nil _ _
  · exact List.cons_ne_nil _ _

theorem quotePlus_ne_nil {s : Str} (hs : s ≠ []) : quotePlus s ≠ [] := by
  cases s with
  | nil => exact absurd rfl hs
  | cons c rest =>
    rw [quotePlus_cons]
    intro h
    exact quotePlusChar_ne_nil c (List.append_eq_nil.mp h).1

theorem mem_quotePlus_good {c : Char} {s : Str} (hc : c ∈ quotePlus s) :
    goodQ c = true := by
  unfold quotePlus at hc
  obtain ⟨chunk, hchunk, hcchunk⟩ := List.mem_flatten.mp hc
  obtain ⟨d, _, rfl⟩ := List.mem_map.mp hchunk
  exact quotePlusChar_good d c hcchunk

theorem unquotePlus_quotePlus_aux :
    ∀ (s : Str) (fuel : Nat), (quotePlus s).length ≤ fuel →
      percentDecodeAux fuel (plusToSpace (quotePlus s)) = s := by
  intro s
  induction s with
  | nil =>
    intro fuel _
    rw [quotePlus_nil]
    exact percentDecodeAux_nil fuel
  | cons d rest ih =>
    intro fuel hf
    rw [quotePlus_cons] at hf ⊢
    rw [show plusToSpace (quotePlusChar d ++ quotePlus rest) =
      plusToSpace (quotePlusChar d) ++ plusToSpace (quotePlus rest) from
      List.map_append _ _ _]
    by_cases h1 : isAlwaysSafe d = true
    · have hch : quotePlusChar d = [d] := by
        unfold quotePlusChar
        rw [if_pos h1]
      have hd1 : d ≠ '+' := by rintro rfl; exact absurd h1 (by decide)
      have hd2 : d ≠ '%' := by rintro rfl; exact absurd h1 (by decide)
      rw [hch] at hf ⊢
      rw [show plusToSpace [d] = [d] from by simp [plusToSpace, hd1]]
      rw [List.length_append] at hf
      cases fuel with
      | zero => exact absurd hf (by simp)
      | succ f =>
        show percentDecodeAux (f + 1) (d :: plusToSpace (quotePlus rest)) =
          d :: rest
        simp only [percentDecodeAux]
        rw [if_neg hd2, ih f (by simp at hf; omega)]
    · have h1' : ¬ isAlwaysSafe d = true := h1
      by_cases h2 : d = ' '
      · have hch : quotePlusChar d = ['+'] := by
          unfold quotePlusChar
          rw [if_neg h1', if_pos h2]
        rw [hch] at hf ⊢
        rw [show plusToSpace ['+'] = [' '] from by simp [plusToSpace]]
        rw [List.length_append] at hf
        cases fuel with
        | zero => exact absurd hf (by simp)
        | succ f =>
          show percentDecodeAux (f + 1) (' ' :: plusToSpace (quotePlus rest)) =
            d :: rest
          simp only [percentDecodeAux]
          rw [if_neg (by decide : ¬ (' ' : Char) = '%'),
            ih f (by simp at hf; omega), h2]
      · by_cases h3 : d.toNat < 256
        · have hch : quotePlusChar d =
              ['%', hexUpper (d.toNat / 16), hexUpper (d.toNat % 16)] := by
            unfold quotePlusChar
            rw [if_neg h1', if_neg h2, if_pos h3]
          have hx1 : isHexDigit (hexUpper (d.toNat / 16)) = true :=
            isHexDigit_hexUpper (by omega)
          have hx2 : isHexDigit (hexUpper (d.toNat % 16)) = true :=
            isHexDigit_hexUpper (Nat.mod_lt _ (by omega))
          rw [hch] at hf ⊢
          rw [show plusToSpace ['%', hexUpper (d.toNat / 16),
              hexUpper (d.toNat % 16)] =
            ['%', hexUpper (d.toNat / 16), hexUpper (d.toNat % 16)] from by
            simp only [plusToSpace, List.map_cons, List.map_nil]
            rw [if_neg (by decide : ¬ ('%' : Char) = '+'),
              if_neg (isHexDigit_ne_plus hx1), if_neg (isHexDigit_ne_plus hx2)]]
          rw [List.length_append] at hf
          cases fuel with
          | zero => exact absurd hf (by simp)
          | succ f =>
            show percentDecodeAux (f + 1) ('%' :: hexUpper (d.toNat / 16) ::
              hexUpper (d.toNat % 16) :: plusToSpace (quotePlus rest)) =
              d :: rest
            simp only [percentDecodeAux]
            rw [if_pos trivial]
            rw [if_pos (show (isHexDigit (hexUpper (d.toNat / 16)) &&
                isHexDigit (hexUpper (d.toNat % 16))) = true from by
              rw [hx1, hx2]; rfl)]
            rw [hexVal_hexUpper (by omega),
              hexVal_hexUpper (Nat.mod_lt _ (by omega)),
              Nat.div_add_mod d.toNat 16, Char.ofNat_toNat,
              ih f (by simp at hf; omega)]
        · have hch : quotePlusChar d = [d] := by
            unfold quotePlusChar
            rw [if_neg h1', if_neg h2, if_neg h3]
          have hd1 : d ≠ '+' := by
            rintro rfl
            exact h3 (by decide)
          have hd2 : d ≠ '%' := by
            rintro rfl
            exact h3 (by decide)
          rw [hch] at hf ⊢
          rw [show plusToSpace [d] = [d] from by simp [plusToSpace, hd1]]
          rw [List.length_append] at hf
          cases fuel with
          | zero => exact absurd hf (by simp)
          | succ f =>
            show percentDecodeAux (f + 1)
              (d :: plusToSpace (quotePlus rest)) = d :: rest
            simp only [percentDecodeAux]
            rw [if_neg hd2, ih f (by simp at hf; omega)]

theorem unquotePlus_quotePlus (s : Str) : unquotePlus (quotePlus s) = s := by
  unfold unquotePlus percentDecode
  rw [show (plusToSpace (quotePlus s)).length = (quotePlus s).length from
    List.length_map _ _]
  exact unquotePlus_quotePlus_aux s _ le_rfl

/-! ## `parse_qs ∘ urlencode` round trip -/

theorem splitSep_no_sep {sep : Char} {a : Str} (h : sep ∉ a) :
    splitSep sep a = [a] := by
  induction a with
  | nil => rfl
  | cons c rest ih =>
    have hc : ¬ c = sep := fun he => h (by rw [he]; exact List.mem_cons_self _ _)
    have hrest : sep ∉ rest := fun hm => h (List.mem_cons_of_mem _ hm)
    unfold splitSep
    rw [if_neg hc, ih hrest]

theorem splitSep_append_cons {sep : Char} {a rest : Str} (h : sep ∉ a) :
    splitSep sep (a ++ sep :: rest) = a :: splitSep sep rest := by
  induction a with
  | nil =>
    show splitSep sep (sep :: rest) = [] :: splitSep sep rest
    simp only [splitSep]
    rw [if_pos trivial]
  | cons c a' ih =>
    have hc : ¬ c = sep := fun he => h (by rw [he]; exact List.mem_cons_self _ _)
    have ha' : sep ∉ a' := fun hm => h (List.mem_cons_of_mem _ hm)
    show splitSep sep (c :: (a' ++ sep :: rest)) =
      (c :: a') :: splitSep sep rest
    simp only [splitSep]
    rw [if_neg hc, ih ha']

theorem joinAmp_cons (s : Str) (rest : List Str) (h : rest ≠ []) :
    joinAmp (s :: rest) = s ++ '&' :: joinAmp rest := by
  cases rest with
  | nil => exact absurd rfl h
  | cons t ts => rfl

theorem splitSep_joinAmp :
    ∀ chunks : List Str, chunks ≠ [] → (∀ ch ∈ chunks, '&' ∉ ch) →
      splitSep '&' (joinAmp chunks) = chunks := by
  intro chunks
  induction chunks with
  | nil => exact fun h _ => absurd rfl h
  | cons ch rest ih =>
    intro _ hall
    cases rest with
    | nil =>
      show splitSep '&' (joinAmp [ch]) = [ch]
      exact splitSep_no_sep (hall ch (List.mem_cons_self _ _))
    | cons ch2 rest2 =>
      rw [joinAmp_cons ch _ (List.cons_ne_nil _ _),
        splitSep_append_cons (hall ch (List.mem_cons_self _ _)),
        ih (List.cons_ne_nil _ _)
          (fun c hc => hall c (List.mem_cons_of_mem _ hc))]

theorem qslPair_chunk {k v : Str} (hv : v ≠ []) :
    qslPair false (quotePlus k ++ '=' :: quotePlus v) = some (k, v) := by
  unfold qslPair
  rw [if_neg (show ¬ quotePlus k ++ '=' :: quotePlus v = [] from fun h =>
    List.cons_ne_nil _ _ (List.append_eq_nil.mp h).2)]
  rw [if_pos (show '=' ∈ quotePlus k ++ '=' :: quotePlus v from
    List.mem_append.mpr (Or.inr (List.mem_cons_self _ _)))]
  rw [List.takeWhile_append_of_pos (fun c hc =>
      decide_eq_true (goodQ_ne (mem_quotePlus_good hc)).1),
    List.takeWhile_cons_of_neg (by decide),
    List.append_nil,
    List.dropWhile_append_of_pos (fun c hc =>
      decide_eq_true (goodQ_ne (mem_quotePlus_good hc)).1),
    List.dropWhile_cons_of_neg (by decide)]
  rw [if_pos (Or.inl (show ('=' :: quotePlus v).drop 1 ≠ [] from
    quotePlus_ne_nil hv))]
  rw [unquotePlus_quotePlus]
  show some (k, unquotePlus (quotePlus v)) = some (k, v)
  rw [unquotePlus_quotePlus]

theorem chunk_no_amp {k v : Str} : '&' ∉ quotePlus k ++ '=' :: quotePlus v := by
  intro h
  rcases List.mem_append.mp h with h | h
  · exact (goodQ_ne (mem_quotePlus_good h)).2.1 rfl
  · rcases List.mem_cons.mp h with h | h
    · exact absurd h (by decide)
    · exact (goodQ_ne (mem_quotePlus_good h)).2.1 rfl

theorem parseQsl_urlencode {pairs : List (Str × List Str)}
    (hvals : ∀ kv ∈ pairs, ∀ v ∈ kv.2, v ≠ []) :
    parseQsl false (urlencode pairs) =
      (pairs.map (fun kv => kv.2.map (fun v => (kv.1, v)))).flatten := by
  have main : ∀ (L : List (Str × List Str)),
      (∀ kv ∈ L, ∀ v ∈ kv.2, v ≠ []) →
      ((((L.map (fun kv => kv.2.map
          (fun v => quotePlus kv.1 ++ '=' :: quotePlus v))).flatten).map
        (qslPair false)).reduceOption =
      (L.map (fun kv => kv.2.map (fun v => (kv.1, v)))).flatten) := by
    intro L
    induction L with
    | nil => exact fun _ => rfl
    | cons kv rest ih =>
      intro hv
      simp only [List.map_cons, List.flatten_cons, List.map_append,
        List.reduceOption_append]
      rw [ih (fun kv' h' => hv kv' (List.mem_cons_of_mem _ h'))]
      congr 1
      rw [List.map_map]
      rw [show kv.2.map (qslPair false ∘
          fun v => quotePlus kv.1 ++ '=' :: quotePlus v) =
        kv.2.map (fun v => some (kv.1, v)) from List.map_congr_left
          (fun v hv' => qslPair_chunk (hv kv (List.mem_cons_self _ _) v hv'))]
      rw [show kv.2.map (fun v => some (kv.1, v)) =
        (kv.2.map (fun v => (kv.1, v))).map some from (List.map_map _ _ _).symm]
      exact reduceOption_map_some _
  unfold parseQsl urlencode
  by_cases hnil : (pairs.map (fun kv => kv.2.map
      (fun v => quotePlus kv.1 ++ '=' :: quotePlus v))).flatten = []
  · rw [hnil]
    have hrhs : (pairs.map (fun kv =>
        kv.2.map (fun v => (kv.1, v)))).flatten = [] := by
      rw [List.flatten_eq_nil_iff] at hnil ⊢
      intro l hl
      obtain ⟨kv, hkv, rfl⟩ := List.mem_map.mp hl
      have h2 := hnil _ (List.mem_map.mpr ⟨kv, hkv, rfl⟩)
      rw [List.map_eq_nil_iff] at h2 ⊢
      exact h2
    rw [hrhs]
    rfl
  · rw [splitSep_joinAmp _ hnil (by
      intro ch hch
      obtain ⟨chl, hchl, hch2⟩ := List.mem_flatten.mp hch
      obtain ⟨kv, _, rfl⟩ := List.mem_map.mp hchl
      obtain ⟨v, _, rfl⟩ := List.mem_map.mp hch2
      exact chunk_no_amp)]
    exact main pairs hvals

theorem qslPair_false_some {nb : Str} {kv : Str × Str}
    (h : qslPair false nb = some kv) : kv.2 ≠ [] := by
  unfold qslPair at h
  by_cases h0 : nb = []
  · rw [if_pos h0] at h
    exact Option.noConfusion h
  · rw [if_neg h0] at h
    by_cases h1 : '=' ∈ nb
    · rw [if_pos h1] at h
      by_cases h2 : (nb.dropWhile (· ≠ '=')).drop 1 ≠ [] ∨ (false : Bool)
      · rw [if_pos h2] at h
        have hval : (nb.dropWhile (· ≠ '=')).drop 1 ≠ [] := by
          rcases h2 with h2 | h2
          · exact h2
          · exact absurd h2 (by decide)
        obtain rfl := (Option.some.injEq _ _).mp h
        exact unquotePlus_ne_nil hval
      · rw [if_neg h2] at h
        exact Option.noConfusion h
    · rw [if_neg h1] at h
      rw [if_neg (by decide : ¬ (false : Bool) = true)] at h
      exact Option.noConfusion h

theorem parseQsl_false_val {q : Str} : ∀ kv ∈ parseQsl false q, kv.2 ≠ [] := by
  intro kv hkv
  unfold parseQsl at hkv
  rw [List.reduceOption_mem_iff] at hkv
  obtain ⟨nb, _, hnb⟩ := List.mem_map.mp hkv
  exact qslPair_false_some hnb

/-! ## `qsAdd` grouping -/

theorem qsAdd_keys (acc : List (Str × List Str)) (k : Str) (v : Str) :
    (qsAdd acc k v).map Prod.fst =
      if k ∈ acc.map Prod.fst then acc.map Prod.fst
      else acc.map Prod.fst ++ [k] := by
  induction acc with
  | nil => rfl
  | cons p rest ih =>
    obtain ⟨k', vs⟩ := p
    by_cases hk : k' = k
    · subst hk
      show (qsAdd ((k', vs) :: rest) k' v).map Prod.fst = _
      unfold qsAdd
      rw [if_pos rfl]
      rw [if_pos (show k' ∈ ((k', vs) :: rest).map Prod.fst from
        List.mem_cons_self _ _)]
      rfl
    · show (qsAdd ((k', vs) :: rest) k v).map Prod.fst = _
      unfold qsAdd
      rw [if_neg hk]
      show k' :: (qsAdd rest k v).map Prod.fst = _
      rw [ih]
      by_cases hmem : k ∈ rest.map Prod.fst
      · rw [if_pos hmem,
          if_pos (show k ∈ ((k', vs) :: rest).map Prod.fst from
            List.mem_cons_of_mem _ hmem)]
        rfl
      · rw [if_neg hmem,
          if_neg (show ¬ k ∈ ((k', vs) :: rest).map Prod.fst from by
            intro hm
            rcases List.mem_cons.mp hm with hm | hm
            · exact hk hm.symm
            · exact hmem hm)]
        rfl

theorem okPairs_qsAdd {acc : List (Str × List Str)} {k : Str} {v : Str}
    (hok : okPairs acc) (hv : v ≠ []) : okPairs (qsAdd acc k v) := by
  induction acc with
  | nil =>
    refine ⟨List.nodup_singleton k, ?_⟩
    intro kv hkv
    rw [show qsAdd [] k v = [(k, [v])] from rfl] at hkv
    rw [List.mem_singleton.mp hkv]
    exact ⟨List.cons_ne_nil _ _, fun w hw => by
      rw [List.mem_singleton.mp hw]; exact hv⟩
  | cons p rest ih =>
    obtain ⟨k', vs⟩ := p
    obtain ⟨hnd, hvals⟩ := hok
    rw [List.map_cons, List.nodup_cons] at hnd
    by_cases hk : k' = k
    · subst hk
      rw [show qsAdd ((k', vs) :: rest) k' v = (k', vs ++ [v]) :: rest from by
        unfold qsAdd; rw [if_pos rfl]]
      refine ⟨?_, ?_⟩
      · rw [List.map_cons, List.nodup_cons]
        exact hnd
      · intro kv hkv
        rcases List.mem_cons.mp hkv with rfl | hkv
        · refine ⟨by simp, ?_⟩
          intro w hw
          rcases List.mem_append.mp hw with hw | hw
          · exact (hvals (k', vs) (List.mem_cons_self _ _)).2 w hw
          · rw [List.mem_singleton.mp hw]
            exact hv
        · exact hvals kv (List.mem_cons_of_mem _ hkv)
    · rw [show qsAdd ((k', vs) :: rest) k v = (k', vs) :: qsAdd rest k v from by
        simp only [qsAdd]; rw [if_neg hk]]
      have hokrest : okPairs rest :=
        ⟨hnd.2, fun kv hkv => hvals kv (List.mem_cons_of_mem _ hkv)⟩
      refine ⟨?_, ?_⟩
      · rw [List.map_cons, List.nodup_cons]
        refine ⟨?_, (ih hokrest).1⟩
        rw [qsAdd_keys]
        by_cases hmem : k ∈ rest.map Prod.fst
        · rw [if_pos hmem]
          exact hnd.1
        · rw [if_neg hmem]
          intro hm
          rcases List.mem_append.mp hm with hm | hm
          · exact hnd.1 hm
          · exact hk (List.mem_singleton.mp hm)
      · intro kv hkv
        rcases List.mem_cons.mp hkv with rfl | hkv
        · exact hvals _ (List.mem_cons_self _ _)
        · exact (ih hokrest).2 kv hkv

theorem parseQs_ok (q : Str) : okPairs (parseQs false q) := by
  unfold parseQs
  have main : ∀ (l : List (Str × Str)) (acc : List (Str × List Str)),
      okPairs acc → (∀ kv ∈ l, kv.2 ≠ []) →
      okPairs (l.foldl (fun a p => qsAdd a p.1 p.2) acc) := by
    intro l
    induction l with
    | nil => exact fun acc h _ => h
    | cons p rest ih =>
      intro acc hok hvl
      exact ih _ (okPairs_qsAdd hok (hvl p (List.mem_cons_self _ _)))
        (fun kv hkv => hvl kv (List.mem_cons_of_mem _ hkv))
  exact main _ [] ⟨List.nodup_nil, fun kv hkv => absurd hkv (List.not_mem_nil kv)⟩
    parseQsl_false_val

theorem qsAdd_fresh {acc : List (Str × List Str)} {k : Str} (v : Str)
    (hk : k ∉ acc.map Prod.fst) : qsAdd acc k v = acc ++ [(k, [v])] := by
  induction acc with
  | nil => rfl
  | cons p rest ih =>
    obtain ⟨k', vs⟩ := p
    have hk' : ¬ k' = k := fun he =>
      hk (by rw [← he]; exact List.mem_cons_self _ _)
    show qsAdd ((k', vs) :: rest) k v = (k', vs) :: (rest ++ [(k, [v])])
    unfold qsAdd
    rw [if_neg hk', ih (fun hm => hk (List.mem_cons_of_mem _ hm))]

theorem qsAdd_last {k : Str} {ws : List Str} (v : Str) :
    ∀ acc : List (Str × List Str), k ∉ acc.map Prod.fst →
      qsAdd (acc ++ [(k, ws)]) k v = acc ++ [(k, ws ++ [v])] := by
  intro acc
  induction acc with
  | nil =>
    intro _
    show qsAdd [(k, ws)] k v = [(k, ws ++ [v])]
    unfold qsAdd
    rw [if_pos rfl]
  | cons p rest ih =>
    intro hk
    obtain ⟨k', vs⟩ := p
    have hk' : ¬ k' = k := fun he =>
      hk (by rw [← he]; exact List.mem_cons_self _ _)
    show qsAdd ((k', vs) :: (rest ++ [(k, ws)])) k v =
      (k', vs) :: (rest ++ [(k, ws ++ [v])])
    unfold qsAdd
    rw [if_neg hk', ih (fun hm => hk (List.mem_cons_of_mem _ hm))]

theorem foldl_qsAdd_group {k : Str} :
    ∀ (vs' : List Str) (acc : List (Str × List Str)) (ws : List Str),
      k ∉ acc.map Prod.fst →
      (vs'.map (fun v => (k, v))).foldl (fun a p => qsAdd a p.1 p.2)
        (acc ++ [(k, ws)]) = acc ++ [(k, ws ++ vs')] := by
  intro vs'
  induction vs' with
  | nil =>
    intro acc ws _
    simp
  | cons v vs ih =>
    intro acc ws hk
    simp only [List.map_cons, List.foldl_cons]
    rw [qsAdd_last v acc hk, ih acc (ws ++ [v]) hk,
      List.append_assoc ws [v] vs]
    rfl

theorem foldl_qsAdd_pairs :
    ∀ (pairs acc : List (Str × List Str)),
      (pairs.map Prod.fst).Nodup → (∀ kv ∈ pairs, kv.2 ≠ []) →
      (∀ kk ∈ pairs.map Prod.fst, kk ∉ acc.map Prod.fst) →
      ((pairs.map (fun kv => kv.2.map (fun v => (kv.1, v)))).flatten).foldl
        (fun a p => qsAdd a p.1 p.2) acc = acc ++ pairs := by
  intro pairs
  induction pairs with
  | nil =>
    intro acc _ _ _
    simp
  | cons kv rest ih =>
    intro acc hnd hne hfresh
    obtain ⟨k, vs⟩ := kv
    have hkacc : k ∉ acc.map Prod.fst :=
      hfresh k (by rw [List.map_cons]; exact List.mem_cons_self _ _)
    rw [List.map_cons, List.flatten_cons, List.foldl_append]
    cases vs with
    | nil => exact absurd rfl (hne (k, []) (List.mem_cons_self _ _))
    | cons v vs' =>
      rw [List.map_cons, List.foldl_cons]
      show ((rest.map (fun kv => kv.2.map (fun v => (kv.1, v)))).flatten).foldl
        (fun a p => qsAdd a p.1 p.2)
        ((vs'.map (fun v => (k, v))).foldl (fun a p => qsAdd a p.1 p.2)
          (qsAdd acc k v)) = acc ++ (k, v :: vs') :: rest
      rw [qsAdd_fresh v hkacc, foldl_qsAdd_group vs' acc [v] hkacc]
      rw [List.map_cons, List.nodup_cons] at hnd
      rw [ih (acc ++ [(k, [v] ++ vs')]) hnd.2
        (fun kv hkv => hne kv (List.mem_cons_of_mem _ hkv))
        (by
          intro kk hkk hm
          rw [List.map_append] at hm
          rcases List.mem_append.mp hm with hm | hm
          · exact hfresh kk (List.mem_cons_of_mem _ hkk) hm
          · exact hnd.1 ((List.mem_singleton.mp hm) ▸ hkk))]
      rw [List.append_assoc]
      rfl

theorem parseQs_urlencode {pairs : List (Str × List Str)}
    (hok : okPairs pairs) : parseQs false (urlencode pairs) = pairs := by
  unfold parseQs
  rw [parseQsl_urlencode (fun kv h => (hok.2 kv h).2)]
  have := foldl_qsAdd_pairs pairs [] hok.1 (fun kv h => (hok.2 kv h).1)
    (fun kk _ hm => absurd hm (List.not_mem_nil kk))
  simpa using this

/-! ## Idempotence of the query transformation -/

theorem okPairs_filter {pairs : List (Str × List Str)} (hok : okPairs pairs)
    (p : Str × List Str → Bool) : okPairs (pairs.filter p) :=
  ⟨((List.filter_sublist pairs).map Prod.fst).nodup hok.1,
   fun kv h => hok.2 kv (List.mem_of_mem_filter h)⟩

theorem okPairs_perm {pairs pairs' : List (Str × List Str)}
    (hp : List.Perm pairs' pairs) (hok : okPairs pairs) : okPairs pairs' :=
  ⟨((hp.map Prod.fst).nodup_iff).mpr hok.1, fun kv h => hok.2 kv (hp.subset h)⟩

theorem queryTransform_of_canonical {P : List (Str × List Str)}
    (hok : okPairs P)
    (hsort : P.Pairwise (fun a b => strLeB a.1 b.1 = true))
    (hall : ∀ kv ∈ P, decide (kv.1 ∉ remove_params) = true) :
    queryTransform (urlencode P) = urlencode P := by
  unfold queryTransform
  dsimp only
  rw [parseQs_urlencode hok, List.filter_eq_self.mpr hall]
  show urlencode (stableSort _ P) = _
  rw [stableSort_of_pairwise hsort]

theorem queryTransform_fix (q : Str) :
    queryTransform (queryTransform q) = queryTransform q := by
  have h1 : okPairs ((parseQs false q).filter
      (fun kv => decide (kv.1 ∉ remove_params))) :=
    okPairs_filter (parseQs_ok q) _
  have h2 : okPairs (sortByName ((parseQs false q).filter
      (fun kv => decide (kv.1 ∉ remove_params)))) :=
    okPairs_perm (stableSort_perm _ _) h1
  show queryTransform (urlencode (sortByName ((parseQs false q).filter
    (fun kv => decide (kv.1 ∉ remove_params))))) = _
  rw [queryTransform_of_canonical h2
    (stableSort_pairwise (fun a b : Str × List Str => strLeB_total a.1 b.1)
      (fun a b c : Str × List Str => strLeB_trans a.1 b.1 c.1) _)
    (fun kv hkv =>
      (List.mem_filter.mp ((stableSort_perm _ _).subset hkv)).2)]
  rfl

/-! ## Re-parsing a reconstructed URL -/

theorem pyIsAlpha_gt32 {c : Char} (h : pyIsAlpha c = true) :
    ¬ c.toNat ≤ 32 := by
  simp only [pyIsAlpha, Bool.or_eq_true, Bool.and_eq_true,
    decide_eq_true_eq] at h
  omega

theorem isSchemeChar_ne {c : Char} (h : isSchemeChar c = true) :
    c ≠ ':' ∧ ¬(c = '\t' ∨ c = '\n' ∨ c = '\r') :=
  ⟨fun he => by subst he; exact absurd h (by decide),
   fun hor => by rcases hor with rfl | rfl | rfl <;> exact absurd h (by decide)⟩

theorem netlocOk_facts {c : Char} (h : netlocOk c = true) :
    netlocDelim c = false ∧ c ≠ '[' ∧ c ≠ ']' ∧
    ¬(c = '\t' ∨ c = '\n' ∨ c = '\r') := by
  simp only [netlocOk, Bool.and_eq_true, Bool.not_eq_true',
    bne_iff_ne] at h
  exact ⟨h.1.1.1.1.1, h.1.1.1.1.2, h.1.1.1.2,
    fun hor => by rcases hor with rfl | rfl | rfl
                  · exact h.1.1.2 rfl
                  · exact h.1.2 rfl
                  · exact h.2 rfl⟩

theorem pathOk_facts {c : Char} (h : pathOk c = true) :
    c ≠ '#' ∧ c ≠ '?' ∧ c ≠ ';' ∧ ¬(c = '\t' ∨ c = '\n' ∨ c = '\r') := by
  simp only [pathOk, Bool.and_eq_true, bne_iff_ne] at h
  exact ⟨h.1.1.1.1.1, h.1.1.1.1.2, h.1.1.1.2,
    fun hor => by rcases hor with rfl | rfl | rfl
                  · exact h.1.1.2 rfl
                  · exact h.1.2 rfl
                  · exact h.2 rfl⟩

theorem queryOk_facts {c : Char} (h : queryOk c = true) :
    c ≠ '#' ∧ ¬(c = '\t' ∨ c = '\n' ∨ c = '\r') := by
  simp only [queryOk, Bool.and_eq_true, bne_iff_ne] at h
  exact ⟨h.1.1.1,
    fun hor => by rcases hor with rfl | rfl | rfl
                  · exact h.1.1.2 rfl
                  · exact h.1.2 rfl
                  · exact h.2 rfl⟩

theorem lstripControl_cons {a : Char} {t : Str} (h : ¬ a.toNat ≤ 32) :
    lstripControl (a :: t) = a :: t := by
  unfold lstripControl
  exact List.dropWhile_cons_of_neg (by simpa using h)

theorem removeUnsafe_eq_self {v : Str}
    (h : ∀ c ∈ v, ¬(c = '\t' ∨ c = '\n' ∨ c = '\r')) : removeUnsafe v = v := by
  unfold removeUnsafe
  exact List.filter_eq_self.mpr (fun a ha => decide_eq_true (h a ha))

/-- The modern `urlunsplit` output for a nonempty scheme, a nonempty netloc
and a path starting with `/` (and no fragment). -/
theorem urlunsplit_of {s n pth q : Str} (hs : s ≠ []) (hn : n ≠ [])
    (hp1 : pth.take 1 = ['/']) :
    urlunsplit s n pth q [] =
      s ++ ':' :: '/' :: '/' :: (n ++ pth ++
        (if q = [] then [] else '?' :: q)) := by
  unfold urlunsplit
  dsimp only
  rw [if_pos (Or.inl hn),
    if_neg (show ¬(pth ≠ [] ∧ pth.take 1 ≠ ['/']) from fun hh => hh.2 hp1),
    if_pos hs,
    if_neg (show ¬([] : Str) ≠ [] from fun h => h rfl)]
  by_cases hq : q = []
  · rw [if_neg (fun hc => hc hq), if_pos hq, List.append_nil]
    rfl
  · rw [if_pos hq, if_neg hq]
    simp [List.append_assoc]

/-- `urlsplit` of `scheme://netloc/T` under cleanliness conditions: the
scheme, netloc and fragment come out exactly, and `/T` is split at its first
`?` into path and query. -/
theorem urlsplitE_shape {s n T : Str}
    (hs0 : s ≠ []) (hs1 : pyIsAlpha (s.headD ' ') = true)
    (hs2 : s.all isSchemeChar = true) (hs3 : lower s = s)
    (hn0 : n ≠ []) (hnok : n.all netlocOk = true)
    (hT : ∀ c ∈ T, ¬(c = '\t' ∨ c = '\n' ∨ c = '\r'))
    (hTh : '#' ∉ T) :
    urlsplitE (s ++ ':' :: '/' :: '/' :: (n ++ '/' :: T)) =
      .ok ⟨s, n,
        (if '?' ∈ '/' :: T then ('/' :: T).takeWhile (· ≠ '?') else '/' :: T),
        (if '?' ∈ '/' :: T then (('/' :: T).dropWhile (· ≠ '?')).drop 1
         else []),
        []⟩ := by
  have hsfacts : ∀ c ∈ s, isSchemeChar c = true := List.all_eq_true.mp hs2
  have hnfacts : ∀ c ∈ n, netlocOk c = true := List.all_eq_true.mp hnok
  have hvne : s ++ ':' :: '/' :: '/' :: (n ++ '/' :: T) ≠ [] := fun h =>
    List.cons_ne_nil _ _ (List.append_eq_nil.mp h).2
  have hstrip : lstripControl (s ++ ':' :: '/' :: '/' :: (n ++ '/' :: T)) =
      s ++ ':' :: '/' :: '/' :: (n ++ '/' :: T) := by
    cases s with
    | nil => exact absurd rfl hs0
    | cons a t =>
      exact lstripControl_cons (pyIsAlpha_gt32 (by exact hs1))
  have hclean : ∀ c ∈ s ++ ':' :: '/' :: '/' :: (n ++ '/' :: T),
      ¬(c = '\t' ∨ c = '\n' ∨ c = '\r') := by
    intro c hc
    rcases List.mem_append.mp hc with hc | hc
    · exact (isSchemeChar_ne (hsfacts c hc)).2
    rcases List.mem_cons.mp hc with rfl | hc
    · rintro (h | h | h) <;> exact absurd h (by decide)
    rcases List.mem_cons.mp hc with rfl | hc
    · rintro (h | h | h) <;> exact absurd h (by decide)
    rcases List.mem_cons.mp hc with rfl | hc
    · rintro (h | h | h) <;> exact absurd h (by decide)
    rcases List.mem_append.mp hc with hc | hc
    · exact (netlocOk_facts (hnfacts c hc)).2.2.2
    rcases List.mem_cons.mp hc with rfl | hc
    · rintro (h | h | h) <;> exact absurd h (by decide)
    · exact hT c hc
  have hruns : removeUnsafe (s ++ ':' :: '/' :: '/' :: (n ++ '/' :: T)) =
      s ++ ':' :: '/' :: '/' :: (n ++ '/' :: T) := removeUnsafe_eq_self hclean
  have hpre : (s ++ ':' :: '/' :: '/' :: (n ++ '/' :: T)).takeWhile
      (· ≠ ':') = s := by
    rw [List.takeWhile_append_of_pos (fun c hc =>
      decide_eq_true (isSchemeChar_ne (hsfacts c hc)).1)]
    rw [List.takeWhile_cons_of_neg (by decide), List.append_nil]
  have hlt : decide (s.length <
      (s ++ ':' :: '/' :: '/' :: (n ++ '/' :: T)).length) = true :=
    decide_eq_true (by rw [List.length_append, List.length_cons]; omega)
  have hemp : s.isEmpty = false := by
    cases s with
    | nil => exact absurd rfl hs0
    | cons a t => rfl
  have hok : (decide (s.length <
      (s ++ ':' :: '/' :: '/' :: (n ++ '/' :: T)).length) &&
      !s.isEmpty && pyIsAlpha (s.headD ' ') && s.all isSchemeChar) = true := by
    rw [hlt, hemp, hs1, hs2]
    rfl
  have hdrop : (s ++ ':' :: '/' :: '/' :: (n ++ '/' :: T)).drop
      (s.length + 1) = '/' :: '/' :: (n ++ '/' :: T) := by
    rw [List.append_cons s ':' ('/' :: '/' :: (n ++ '/' :: T)),
      show s.length + 1 = (s ++ [':']).length from by
        rw [List.length_append]; rfl,
      List.drop_left]
  have hnet : ((n ++ '/' :: T)).takeWhile (fun c => !netlocDelim c) = n := by
    rw [List.takeWhile_append_of_pos (fun c hc => by
      rw [(netlocOk_facts (hnfacts c hc)).1]; rfl)]
    rw [List.takeWhile_cons_of_neg (by decide), List.append_nil]
  have hdw : ((n ++ '/' :: T)).dropWhile (fun c => !netlocDelim c) =
      '/' :: T := by
    rw [List.dropWhile_append_of_pos (fun c hc => by
      rw [(netlocOk_facts (hnfacts c hc)).1]; rfl)]
    rw [List.dropWhile_cons_of_neg (by decide)]
  have hhash : ¬ '#' ∈ ('/' :: T) := by
    intro hm
    rcases List.mem_cons.mp hm with hm | hm
    · exact absurd hm (by decide)
    · exact hTh hm
  have hdrop2 : List.drop 2 ('/' :: '/' :: (n ++ '/' :: T)) =
      n ++ '/' :: T := rfl
  unfold urlsplitE
  dsimp only
  rw [hstrip, hruns, hpre, hok, if_pos rfl, if_pos rfl, hs3, hdrop,
    if_pos (show List.take 2 ('/' :: '/' :: (n ++ '/' :: T)) = ['/', '/']
      from rfl),
    if_pos (show List.take 2 ('/' :: '/' :: (n ++ '/' :: T)) = ['/', '/']
      from rfl),
    hdrop2, hnet, hdw]
  rw [if_neg (show ¬(('[' ∈ n ∧ ']' ∉ n) ∨ (']' ∈ n ∧ '[' ∉ n)) from by
    rintro (⟨h1, _⟩ | ⟨h1, _⟩)
    · exact (netlocOk_facts (hnfacts _ h1)).2.1 rfl
    · exact (netlocOk_facts (hnfacts _ h1)).2.2.1 rfl)]
  rw [if_neg hhash, if_neg hhash]

/-- `urlsplit ∘ urlunsplit` recovers the components exactly, under the
cleanliness side conditions. -/
theorem urlsplitE_reconstruct {s n pth q : Str}
    (hs0 : s ≠ []) (hs1 : pyIsAlpha (s.headD ' ') = true)
    (hs2 : s.all isSchemeChar = true) (hs3 : lower s = s)
    (hn0 : n ≠ []) (hnok : n.all netlocOk = true)
    (hp1 : pth.take 1 = ['/']) (hpok : pth.all pathOk = true)
    (hqok : q.all queryOk = true) :
    urlsplitE (urlunsplit s n pth q []) = .ok ⟨s, n, pth, q, []⟩ := by
  obtain ⟨pth', rfl⟩ : ∃ pth', pth = '/' :: pth' := by
    cases pth with
    | nil => exact absurd hp1 (by decide)
    | cons a t =>
      refine ⟨t, ?_⟩
      have h1 : List.take 1 (a :: t) = [a] := rfl
      rw [h1] at hp1
      injection hp1 with h2 _
      rw [h2]
  have hpfacts : ∀ c ∈ pth', pathOk c = true := fun c hc =>
    List.all_eq_true.mp hpok c (List.mem_cons_of_mem _ hc)
  have hqfacts : ∀ c ∈ q, queryOk c = true := List.all_eq_true.mp hqok
  rw [urlunsplit_of hs0 hn0 hp1]
  rw [List.append_assoc n ('/' :: pth') _, List.cons_append]
  rw [urlsplitE_shape hs0 hs1 hs2 hs3 hn0 hnok
    (by
      intro c hc
      rcases List.mem_append.mp hc with hc | hc
      · exact (pathOk_facts (hpfacts c hc)).2.2.2
      · by_cases hq : q = []
        · rw [if_pos hq] at hc
          exact absurd hc (List.not_mem_nil c)
        · rw [if_neg hq] at hc
          rcases List.mem_cons.mp hc with rfl | hc
          · rintro (h | h | h) <;> exact absurd h (by decide)
          · exact (queryOk_facts (hqfacts c hc)).2)
    (by
      intro hm
      rcases List.mem_append.mp hm with hm | hm
      · exact (pathOk_facts (hpfacts _ hm)).1 rfl
      · by_cases hq : q = []
        · rw [if_pos hq] at hm
          exact List.not_mem_nil _ hm
        · rw [if_neg hq] at hm
          rcases List.mem_cons.mp hm with hm | hm
          · exact absurd hm (by decide)
          · exact (queryOk_facts (hqfacts _ hm)).1 rfl)]
  by_cases hq : q = []
  · rw [if_pos hq, List.append_nil]
    have hno : ¬ '?' ∈ '/' :: pth' := by
      intro hm
      rcases List.mem_cons.mp hm with hm | hm
      · exact absurd hm (by decide)
      · exact (pathOk_facts (hpfacts _ hm)).2.1 rfl
    rw [if_neg hno, if_neg hno, hq]
  · rw [if_neg hq]
    have hin : '?' ∈ '/' :: (pth' ++ '?' :: q) :=
      List.mem_cons_of_mem _
        (List.mem_append.mpr (Or.inr (List.mem_cons_self _ _)))
    rw [if_pos hin, if_pos hin,
      List.takeWhile_cons_of_pos (by decide),
      List.takeWhile_append_of_pos (fun c hc =>
        decide_eq_true (pathOk_facts (hpfacts c hc)).2.1),
      List.takeWhile_cons_of_neg (by decide), List.append_nil,
      List.dropWhile_cons_of_pos (by decide),
      List.dropWhile_append_of_pos (fun c hc =>
        decide_eq_true (pathOk_facts (hpfacts c hc)).2.1),
      List.dropWhile_cons_of_neg (by decide)]
    rfl

/-- `urlparse ∘ urlunparse` with empty params and fragment: thanks to
`pathOk` (no `;` in the path) no params split happens on re-parse. -/
theorem urlparseE_urlunparse {s n pth q : Str}
    (hs0 : s ≠ []) (hs1 : pyIsAlpha (s.headD ' ') = true)
    (hs2 : s.all isSchemeChar = true) (hs3 : lower s = s)
    (hn0 : n ≠ []) (hnok : n.all netlocOk = true)
    (hp1 : pth.take 1 = ['/']) (hpok : pth.all pathOk = true)
    (hqok : q.all queryOk = true) :
    urlparseE (urlunparse s n pth [] q []) = .ok ⟨s, n, pth, [], q, []⟩ := by
  unfold urlparseE urlunparse
  rw [if_neg (show ¬([] : Str) ≠ [] from fun h => h rfl)]
  rw [urlsplitE_reconstruct hs0 hs1 hs2 hs3 hn0 hnok hp1 hpok hqok]
  dsimp only
  rw [if_neg (show ¬(s ∈ usesParams ∧ ';' ∈ pth) from fun hh =>
    (pathOk_facts (List.all_eq_true.mp hpok _ hh.2)).2.2.1 rfl)]

/-- `normalize` on a successfully parsed URL, written with the parse
result's components. -/
theorem normalize_eq_of_parse {u : Str} {p : UrlParseResult}
    (h : urlparseE u = .ok p) :
    normalize u = some (urlunparse p.scheme (hostTransform p.netloc)
      (pathFix (lower p.path)) [] (queryTransform p.query) []) := by
  unfold normalize
  rw [h]

/-! ## Fixed points of the path and query transformations -/

theorem dropWhile_idem {α : Type} (p : α → Bool) :
    ∀ l : List α, (l.dropWhile p).dropWhile p = l.dropWhile p := by
  intro l
  induction l with
  | nil => rfl
  | cons a t ih =>
    by_cases h : p a = true
    · rw [List.dropWhile_cons_of_pos h, ih]
    · rw [List.dropWhile_cons_of_neg h, List.dropWhile_cons_of_neg h]

theorem rstripSlash_fix (s : Str) :
    rstripSlash (rstripSlash s) = rstripSlash s := by
  unfold rstripSlash
  rw [List.reverse_reverse, dropWhile_idem]

theorem pathFix_fix (p : Str) : pathFix (pathFix p) = pathFix p := by
  unfold pathFix
  dsimp only
  by_cases h : rstripSlash p = []
  · rw [if_pos h,
      if_pos (show rstripSlash ['/'] = [] from by decide)]
  · rw [if_neg h, rstripSlash_fix, if_neg h]

theorem lower_eq_self_of {s : Str} (h : ∀ c ∈ s, pyLowerChar c = c) :
    lower s = s :=
  (List.map_congr_left h).trans (List.map_id s)

theorem mem_rstripSlash {s : Str} {c : Char} (h : c ∈ rstripSlash s) :
    c ∈ s := by
  unfold rstripSlash at h
  rw [List.mem_reverse] at h
  exact List.mem_reverse.mp ((List.dropWhile_suffix _).subset h)

theorem mem_pathFix {p : Str} {c : Char} (h : c ∈ pathFix p) :
    c ∈ p ∨ c = '/' := by
  unfold pathFix at h
  dsimp only at h
  split at h
  · exact Or.inr (List.mem_singleton.mp h)
  · exact Or.inl (mem_rstripSlash h)

theorem lower_pathFix_lower (x : Str) :
    lower (pathFix (lower x)) = pathFix (lower x) := by
  apply lower_eq_self_of
  intro c hc
  rcases mem_pathFix hc with hc | rfl
  · obtain ⟨c0, _, rfl⟩ := List.mem_map.mp hc
    exact pyLowerChar_fix c0
  · decide

theorem pathFix_lower_fix (x : Str) :
    pathFix (lower (pathFix (lower x))) = pathFix (lower x) := by
  rw [lower_pathFix_lower, pathFix_fix]

theorem mem_joinAmp {c : Char} : ∀ {l : List Str}, c ∈ joinAmp l →
    c = '&' ∨ ∃ ch ∈ l, c ∈ ch := by
  intro l
  induction l with
  | nil => exact fun h => absurd h (List.not_mem_nil c)
  | cons ch rest ih =>
    intro h
    cases rest with
    | nil => exact Or.inr ⟨ch, List.mem_cons_self _ _, h⟩
    | cons ch2 r2 =>
      rw [joinAmp_cons ch _ (List.cons_ne_nil _ _)] at h
      rcases List.mem_append.mp h with h | h
      · exact Or.inr ⟨ch, List.mem_cons_self _ _, h⟩
      · rcases List.mem_cons.mp h with rfl | h
        · exact Or.inl rfl
        · rcases ih h with h | ⟨ch', hch', hc⟩
          · exact Or.inl h
          · exact Or.inr ⟨ch', List.mem_cons_of_mem _ hch', hc⟩

theorem urlencode_queryOk (pairs : List (Str × List Str)) :
    (urlencode pairs).all queryOk = true := by
  rw [List.all_eq_true]
  intro c hc
  unfold urlencode at hc
  rcases mem_joinAmp hc with rfl | ⟨ch, hch, hcch⟩
  · decide
  · obtain ⟨chl, hchl, hch2⟩ := List.mem_flatten.mp hch
    obtain ⟨kv, _, rfl⟩ := List.mem_map.mp hchl
    obtain ⟨v, _, rfl⟩ := List.mem_map.mp hch2
    rcases List.mem_append.mp hcch with hm | hm
    · have hg := goodQ_ne (mem_quotePlus_good hm)
      simp only [queryOk, Bool.and_eq_true, bne_iff_ne]
      exact ⟨⟨⟨hg.2.2.1, hg.2.2.2.1⟩, hg.2.2.2.2.1⟩, hg.2.2.2.2.2.1⟩
    · rcases List.mem_cons.mp hm with rfl | hm
      · decide
      · have hg := goodQ_ne (mem_quotePlus_good hm)
        simp only [queryOk, Bool.and_eq_true, bne_iff_ne]
        exact ⟨⟨⟨hg.2.2.1, hg.2.2.2.1⟩, hg.2.2.2.2.1⟩, hg.2.2.2.2.2.1⟩

theorem queryTransform_queryOk (q : Str) :
    (queryTransform q).all queryOk = true := by
  show (urlencode (sortByName ((parseQs false q).filter
    (fun kv => decide (kv.1 ∉ remove_params))))).all queryOk = true
  exact urlencode_queryOk _

/-! ## Claim C7: idempotence of `normalize` -/

/-- C7 counterexample: the host transformation re-applies the `".m." → "."`
replacement on each pass, so `https://x.m.m.com/` normalizes to
`https://x.m.com/`, which normalizes further to `https://x.com/` —
`normalize ∘ normalize ≠ normalize` on this input even though the first
normalization succeeds. -/
theorem C7_counterexample :
    (normalize (chars "https://x.m.m.com/")).bind normalize ≠
      normalize (chars "https://x.m.m.com/") := by
  decide

/-- C7 (amended): `normalize` is idempotent on every URL whose parse
succeeds with an `http`/`https` scheme, whose transformed host is itself a
fixed point of the host transformation (nonempty, free of delimiters,
brackets and unsafe bytes), and whose fixed path starts with `/` and is free
of `#?;` and unsafe bytes.  (The counterexample shows the host condition is
needed; the query part needs no condition — re-encoding is always
idempotent.) -/
theorem C7_normalize_idempotent (u : Str) (p : UrlParseResult)
    (hpu : urlparseE u = .ok p)
    (hsch : p.scheme = chars "http" ∨ p.scheme = chars "https")
    (hhfix : hostTransform (hostTransform p.netloc) = hostTransform p.netloc)
    (hhne : hostTransform p.netloc ≠ [])
    (hhok : (hostTransform p.netloc).all netlocOk = true)
    (hp1 : (pathFix (lower p.path)).take 1 = ['/'])
    (hpok : (pathFix (lower p.path)).all pathOk = true) :
    (normalize u).bind normalize = normalize u := by
  have hs0 : p.scheme ≠ [] := by
    rcases hsch with h | h <;> (rw [h]; decide)
  have hs1 : pyIsAlpha (p.scheme.headD ' ') = true := by
    rcases hsch with h | h <;> (rw [h]; decide)
  have hs2 : p.scheme.all isSchemeChar = true := by
    rcases hsch with h | h <;> (rw [h]; decide)
  have hs3 : lower p.scheme = p.scheme := by
    rcases hsch with h | h <;> (rw [h]; decide)
  rw [normalize_eq_of_parse hpu, Option.some_bind]
  rw [normalize_eq_of_parse (urlparseE_urlunparse hs0 hs1 hs2 hs3 hhne hhok
    hp1 hpok (queryTransform_queryOk p.query))]
  dsimp only
  rw [hhfix, pathFix_lower_fix, queryTransform_fix]

/-- C7 witness: idempotence at the claim's own example
`https://www.example.com/path/`. -/
theorem C7_idempotent_witness :
    (normalize (chars "https://www.example.com/path/")).bind normalize =
      normalize (chars "https://www.example.com/path/") :=
  C7_normalize_idempotent (chars "https://www.example.com/path/")
    ⟨chars "https", chars "www.example.com", chars "/path/", [], [], []⟩
    (by decide) (Or.inr rfl) (by decide) (by decide) (by decide) (by decide)
    (by decide)

/-! ## The 2001-character instance of claim C8 -/

/-- A list ending in `m > 0` copies of `a` has no suffix whose last
character differs from `a`. -/
theorem isSuffixOf_replicate_false {e pre : Str} {m : Nat} {a : Char}
    (hm : 0 < m) (hene : e ≠ []) (hne : e.reverse.head? ≠ some a) :
    e.isSuffixOf (pre ++ List.replicate m a) = false := by
  rw [Bool.eq_false_iff]
  intro hsuf
  rw [List.isSuffixOf_iff_suffix] at hsuf
  obtain ⟨t, ht⟩ := hsuf
  have hrev := congrArg List.reverse ht
  rw [List.reverse_append, List.reverse_append, List.reverse_replicate] at hrev
  have h1 : (e.reverse ++ t.reverse).head? = some a := by
    rw [hrev, List.head?_append_of_ne_nil _ (show List.replicate m a ≠ [] from by
      cases m with
      | zero => omega
      | succ k => rw [List.replicate_succ]; exact List.cons_ne_nil _ _)]
    cases m with
    | zero => omega
    | succ k => rw [List.replicate_succ]; rfl
  rw [List.head?_append_of_ne_nil _ (fun h0 =>
    hene (List.reverse_eq_nil_iff.mp h0))] at h1
  exact hne h1

/-- Witness for C8 at concrete inputs: the `ftp` URL, the 2001-character URL
`https://e.co/` followed by 1988 `a`s, and a `.pdf` URL. -/
theorem C8_validator_witness :
    is_valid_url (fun _ => (chars "example", chars "com"))
      (chars "ftp://example.com") = ⟨false, chars "Invalid scheme"⟩ ∧
    is_valid_url (fun _ => (chars "e", chars "co"))
      (chars "https://e.co/" ++ List.replicate 1988 'a') =
      ⟨false, chars "URL too long"⟩ ∧
    is_valid_url (fun _ => (chars "e", chars "co"))
      (chars "https://e.co/f.pdf") =
      ⟨false, chars "Blocked file extension"⟩ := by
  refine ⟨C8_validator_short_circuit.1 _, ?_, ?_⟩
  · have hpok : ('/' :: List.replicate 1988 'a').all pathOk = true := by
      rw [List.all_eq_true]
      intro c hc
      rcases List.mem_cons.mp hc with rfl | hc
      · decide
      · rw [List.eq_of_mem_replicate hc]
        decide
    have hparse : urlparseE
        (chars "https://e.co/" ++ List.replicate 1988 'a') =
        .ok ⟨chars "https", chars "e.co", '/' :: List.replicate 1988 'a',
          [], [], []⟩ := by
      have h := @urlparseE_urlunparse (chars "https") (chars "e.co")
        ('/' :: List.replicate 1988 'a') []
        (by decide) (by decide) (by decide) (by decide) (by decide)
        (by decide) (by decide) hpok (by decide)
      rw [show urlunparse (chars "https") (chars "e.co")
          ('/' :: List.replicate 1988 'a') [] [] [] =
          chars "https://e.co/" ++ List.replicate 1988 'a' from rfl] at h
      exact h
    have hlowfix : lower (chars "https://e.co/" ++ List.replicate 1988 'a') =
        chars "https://e.co/" ++ List.replicate 1988 'a' := by
      apply lower_eq_self_of
      intro c hc
      rcases List.mem_append.mp hc with hc | hc
      · exact (by decide : ∀ c ∈ chars "https://e.co/",
          pyLowerChar c = c) c hc
      · rw [List.eq_of_mem_replicate hc]
        decide
    have hext : ∀ e ∈ skip_extensions,
        ¬ e.isSuffixOf (lower (chars "https://e.co/" ++
          List.replicate 1988 'a')) := by
      intro e he habs
      have hfacts := (by decide : ∀ e ∈ skip_extensions, e ≠ [] ∧
        e.reverse.head? ≠ some 'a') e he
      rw [hlowfix,
        isSuffixOf_replicate_false (by omega) hfacts.1 hfacts.2] at habs
      exact Bool.noConfusion habs
    exact C8_validator_short_circuit.2.1 _ _ _ hparse (by decide) (by decide)
      (Or.inr rfl) (by decide) hext
      (by rw [List.length_append, List.length_replicate]; decide)
  · exact C8_validator_short_circuit.2.2 _ _
      ⟨chars "https", chars "e.co", chars "/f.pdf", [], [], []⟩
      (by decide) (by decide) (by decide) (by decide) (by decide)
      (by decide)

end PyURLs
